import Mathlib

/-!
Verification of the mensural-to-MEI conversion core
(`mensural_to_mei/convert_detections/convert_to_mei_and_humdrum.py` and the
relevant helpers of `mensural_to_mei/utils.py`).

The Python code is shallowly embedded: symbol tokens are structures with a
`type` and a `pitch` string (exactly the dictionaries produced by
`detect_pitches`), the fixed lexicon dictionaries become `String → Option _`
lookups (a missing key, which raises `KeyError`/`UnboundLocalError` in
Python, becomes `none`), and the stateful conversion loop becomes an explicit
state machine returning `Except Err St`.
-/

set_option maxRecDepth 4000

namespace MensuralToMei

/-- A detected musical symbol: the dictionaries built by `detect_pitches`
always carry exactly a `type` and a `pitch` key (the pitch is the empty
string for pitchless symbols), so Python dictionary equality coincides with
structural equality of this type. -/
structure Symbol where
  type : String
  pitch : String
deriving DecidableEq, Repr

/-- The `RESTS_MEI` dictionary: rest token type to MEI duration. -/
def RESTS_MEI (t : String) : Option String :=
  if t = "r-lo" then some "longa"
  else if t = "r-br" then some "brevis"
  else if t = "r-sb" then some "semibrevis"
  else if t = "r-mi" then some "minima"
  else if t = "r-sm" then some "semiminima"
  else if t = "r-fu" then some "fusa"
  else if t = "r-se" then some "semifusa"
  else none

/-- The key/value pairs of the `NOTES_MEI` dictionary: note token type to
MEI duration. -/
def NOTES_MEI_TABLE : List (String × String) :=
  [("ma", "maxima"), ("lo", "longa"), ("bre", "brevis"),
   ("sebre", "semibrevis"), ("mi", "minima"), ("sm", "semiminima"),
   ("fu", "fusa"), ("sf", "semifusa"), ("br", "brevis"),
   ("sb", "semibrevis"), ("li", "semibrevis")]

/-- Subscripting the `NOTES_MEI` dictionary. -/
def NOTES_MEI (t : String) : Option String := List.lookup t NOTES_MEI_TABLE

/-- The `NOTES_HUMDRUM` dictionary: note token type to Humdrum duration sigil. -/
def NOTES_HUMDRUM (t : String) : Option String :=
  if t = "ma" then some "X"
  else if t = "lo" then some "L"
  else if t = "bre" then some "S"
  else if t = "sebre" then some "s"
  else if t = "mi" then some "M"
  else if t = "sm" then some "m"
  else if t = "fu" then some "U"
  else if t = "sf" then some "u"
  else if t = "br" then some "S~"
  else if t = "sb" then some "s~"
  else if t = "li" then some "[s"
  else none

/-- The `RESTS_HUMDRUM` dictionary: rest token type to Humdrum rest line. -/
def RESTS_HUMDRUM (t : String) : Option String :=
  if t = "r-lo" then some "Lr"
  else if t = "r-br" then some "Sr"
  else if t = "r-sb" then some "sr"
  else if t = "r-mi" then some "Mr"
  else if t = "r-sm" then some "mr"
  else if t = "r-fu" then some "Ur"
  else if t = "r-se" then some "ur"
  else none

/-- The `CLEFS_HUMDRUM` dictionary: clef pitch code to Humdrum clef line. -/
def CLEFS_HUMDRUM (p : String) : Option String :=
  if p = "c-c-g" then some "*clefC2"
  else if p = "c-c-e" then some "*clefC1"
  else if p = "c-c-b" then some "*clefC3"
  else if p = "c-c-d" then some "*clefC4"
  else if p = "c-g" then some "*clefG2"
  else if p = "c-f-b" then some "*clefF3"
  else if p = "c-f" then some "*clefF4"
  else none

/-- `analyse_clef`: clef pitch code to MEI (shape, line).  In Python an
unknown code leaves `shape`/`line` unassigned and the `return` raises
`UnboundLocalError`; that is the `none` case here. -/
def analyse_clef (p : String) : Option (String × String) :=
  if p = "c-g" then some ("G", "2")
  else if p = "c-c-e" then some ("C", "1")
  else if p = "c-c-g" then some ("C", "2")
  else if p = "c-c-b" then some ("C", "3")
  else if p = "c-c-d" then some ("C", "4")
  else if p = "c-f-b" then some ("F", "3")
  else if p = "c-f" then some ("F", "4")
  else none

/-- `analyse_mensuration`: mensuration pitch code to (sign, slash); the slash
is the empty string for `met_c`.  Unknown codes raise in Python (`none`). -/
def analyse_mensuration (p : String) : Option (String × String) :=
  if p = "met_c" then some ("C", "")
  else if p = "al-br" then some ("C", "1")
  else if p = "met_o_cut" then some ("O", "1")
  else none

/-- The `MENSURAL_NOTE_STEPS` dictionary of `analyse_note`: the fixed 21-step
table mapping a mensural step code to its absolute diatonic position. -/
def MENSURAL_NOTE_STEPS (p : String) : Option Int :=
  if p = "c0" then some 0 else if p = "d0" then some 1
  else if p = "e0" then some 2 else if p = "f0" then some 3
  else if p = "g0" then some 4 else if p = "a0" then some 5
  else if p = "b0" then some 6 else if p = "c1" then some 7
  else if p = "d1" then some 8 else if p = "e1" then some 9
  else if p = "f1" then some 10 else if p = "g1" then some 11
  else if p = "a1" then some 12 else if p = "b1" then some 13
  else if p = "c2" then some 14 else if p = "d2" then some 15
  else if p = "e2" then some 16 else if p = "f2" then some 17
  else if p = "g2" then some 18 else if p = "a2" then some 19
  else if p = "b2" then some 20
  else none

/-- The key/value pairs of the `RELATIVE_NOTE_STEPS` dictionary of
`analyse_note`: relative step (only the keys -14..13 exist) to diatonic
letter. -/
def RELATIVE_NOTE_STEPS_TABLE : List (Int × String) :=
  [(-14, "c"), (-13, "d"), (-12, "e"), (-11, "f"), (-10, "g"), (-9, "a"),
   (-8, "b"), (-7, "c"), (-6, "d"), (-5, "e"), (-4, "f"), (-3, "g"),
   (-2, "a"), (-1, "b"), (0, "c"), (1, "d"), (2, "e"), (3, "f"), (4, "g"),
   (5, "a"), (6, "b"), (7, "c"), (8, "d"), (9, "e"), (10, "f"), (11, "g"),
   (12, "a"), (13, "b")]

/-- Subscripting the `RELATIVE_NOTE_STEPS` dictionary; a key outside the
table raises `KeyError` in Python (`none`). -/
def RELATIVE_NOTE_STEPS (k : Int) : Option String :=
  List.lookup k RELATIVE_NOTE_STEPS_TABLE

/-- The clef-line dispatch of `analyse_note`: the reference step position of
each of the 7 defined clef codes (an unknown code leaves `clefline`
unassigned in Python, hence `none`). -/
def clef_reference_step (c : String) : Option Int :=
  if c = "c-c-g" then MENSURAL_NOTE_STEPS "g1"
  else if c = "c-c-e" then MENSURAL_NOTE_STEPS "e1"
  else if c = "c-c-b" then MENSURAL_NOTE_STEPS "b1"
  else if c = "c-c-d" then MENSURAL_NOTE_STEPS "d2"
  else if c = "c-g" then MENSURAL_NOTE_STEPS "c1"
  else if c = "c-f-b" then MENSURAL_NOTE_STEPS "f2"
  else if c = "c-f" then MENSURAL_NOTE_STEPS "a2"
  else none

/-- `analyse_note`: compute (octave, diatonic letter) of a pitch code
relative to a clef code.  Faithful to the source: baseline octave 4, the
four relative-pitch branches, and `none` wherever Python would raise
(`UnboundLocalError` for an unknown clef, `KeyError` for an unknown pitch
code or a relative pitch outside the keys of `RELATIVE_NOTE_STEPS`). -/
def analyse_note (clefPitch pitch : String) : Option (Int × String) := do
  let clefline ← clef_reference_step clefPitch
  let pitchline ← MENSURAL_NOTE_STEPS pitch
  let rel_pitch := pitchline - clefline
  if -7 ≤ rel_pitch ∧ rel_pitch < 0 then
    (RELATIVE_NOTE_STEPS (7 + rel_pitch)).map (fun s => ((4 : Int) - 1, s))
  else if rel_pitch > 6 then
    (RELATIVE_NOTE_STEPS rel_pitch).map (fun s => ((4 : Int) + 1, s))
  else if -14 ≤ rel_pitch ∧ rel_pitch < -7 then
    (RELATIVE_NOTE_STEPS (7 + rel_pitch)).map (fun s => ((4 : Int) - 2, s))
  else
    (RELATIVE_NOTE_STEPS rel_pitch).map (fun s => ((4 : Int), s))

/-- Python's `str.upper`, specialised to the way `get_humdrum_pitch` uses it
(character-wise uppercasing); written over the character list so that it
reduces by kernel computation. -/
def str_upper (s : String) : String := String.mk (s.data.map Char.toUpper)

/-- `get_humdrum_pitch`: append the register-encoded pitch letters to a
Humdrum line (octave 2: two uppercase; 3: one uppercase; 4: one lowercase;
5: two lowercase; any other octave returns the line unchanged). -/
def get_humdrum_pitch (oct : Int) (pname : String) (line : String) : String :=
  if oct = 2 then line ++ str_upper pname ++ str_upper pname
  else if oct = 3 then line ++ str_upper pname
  else if oct = 4 then line ++ pname
  else if oct = 5 then line ++ pname ++ pname
  else line


/-! ### The conversion state machine

`convert_to_mei_and_humdrum` is a single pass over the staff list that builds
one MEI document at a time (finalising it on `bar` tokens or at end of
stream) and one cumulative Humdrum line buffer.  The embedding below follows
the Python loop branch by branch.  Python runtime errors
(`IndexError`/`KeyError`/`UnboundLocalError`/`NameError`, and the explicit
`sys.exit` for a missing clef) become values of `Err`. -/

/-- Runtime failures of the Python conversion code. -/
inductive Err where
  /-- An out-of-range sequence subscript (`IndexError`). -/
  | indexError
  /-- A missing dictionary key (`KeyError`). -/
  | keyError
  /-- A local variable read before assignment
  (`UnboundLocalError`/`NameError`). -/
  | unboundLocal
  /-- The explicit `sys.exit('No clef was found …')` abort path. -/
  | sysExitNoClef
deriving DecidableEq, Repr

/-- A MEI `note` element as far as its attributes are concerned. -/
structure NoteE where
  dur : String
  oct : Int
  pname : String
  accid : Option String
  colored : Bool
deriving DecidableEq, Repr

/-- A typed element appended into the current document's layer. -/
inductive Elem where
  | mensurE (prolatio sign : String) (slash num numbase : Option String)
  | dotE
  | restE (dur : String)
  | noteE (n : NoteE)
  | ligatureE (form : String) (notes : List NoteE)
  | barLineE (form visible : Option String)
  | custosE (p : Option (Int × String))
deriving DecidableEq, Repr

/-- The per-document output tree: the clef/key attributes set on the
`staffDef` scaffold and the elements of the single layer, in order.  (The
constant header/scaffold elements carry no claim-relevant data.) -/
structure Doc where
  clefShape : Option String
  clefLine : Option String
  keySig : Option String
  layer : List Elem
deriving DecidableEq, Repr

/-- A fresh document, as produced by `create_mei_declarations`. -/
def Doc.empty : Doc := ⟨none, none, none, []⟩

/-- One finalized document as written by `save_mei_file`: the base file name
(without extension), the MEI tree, and the Humdrum line buffer snapshot that
is serialised alongside it (empty when Humdrum output is disabled). -/
structure Output where
  save_name : String
  doc : Doc
  humdrum : List String
deriving DecidableEq, Repr

/-- The mutable state of the conversion loop.  `humdrum_line` is the
`humdrum_line` local (`none` = not yet assigned); `lig_ref` and `mens_ref`
are the indices in the *current* layer of the elements referenced by the
`xml_lig` and `mensur` locals (`none` when the reference is unbound or
points into an already finalized document, where a mutation can no longer
affect any output). -/
structure St where
  doc : Doc
  humdrum : List String
  humdrum_line : Option String
  sharp_found : Bool
  flat_found : Bool
  ligature : Bool
  lig_ref : Option Nat
  mens_bound : Bool
  mens_ref : Option Nat
  initial_clef : Option Symbol
  initial_key : String
  clef : Option Symbol
  first_staff : Bool
  saved : Bool
  filename : String
  filename_counter : Nat
  used_filenames : List String
  id_counter : Nat
  outputs : List Output
deriving DecidableEq, Repr

/-- The state at function entry: `humdrum_string = ['**mens']`, all counters
zero, every local unbound. -/
def initSt : St :=
  { doc := Doc.empty, humdrum := ["**mens"], humdrum_line := none,
    sharp_found := false, flat_found := false, ligature := false,
    lig_ref := none, mens_bound := false, mens_ref := none,
    initial_clef := none, initial_key := "", clef := none,
    first_staff := false, saved := false,
    filename := "", filename_counter := 0, used_filenames := [],
    id_counter := 0, outputs := [] }

/-- Python `str(n).zfill(2)`. -/
def zfill2 (n : Nat) : String :=
  let s := toString n
  String.mk (List.replicate (2 - s.length) '0') ++ s

/-- The `met_3_2` Humdrum rewrite `line[:-1] + '3/2)'`. -/
def met32_rewrite (s : String) : String := s.dropRight 1 ++ "3/2)"

/-- The dot Humdrum rewrite `line[0] + ':' + line[1:]`; subscripting an
empty string raises `IndexError`. -/
def dot_rewrite (s : String) : Option String :=
  match s.data with
  | [] => none
  | c :: cs => some (String.mk (c :: ':' :: cs))

/-- `mensur.set('num', '3'); mensur.set('numbase', '2')` applied to the
element at index `i` of the current layer. -/
def set_mensur_proportion (layer : List Elem) (i : Nat) : List Elem :=
  List.modify
    (fun e =>
      match e with
      | .mensurE pr sg sl _ _ => .mensurE pr sg sl (some "3") (some "2")
      | e => e) i layer

/-- `xml_lig.append(note)` for the ligature element at index `i` of the
current layer (lxml moves the note into the ligature). -/
def append_lig_note (layer : List Elem) (i : Nat) (n : NoteE) : List Elem :=
  List.modify
    (fun e =>
      match e with
      | .ligatureE f ns => .ligatureE f (ns ++ [n])
      | e => e) i layer

/-- Whether `pat` occurs at the head of `s`. -/
def substr_at : List Char → List Char → Bool
  | [], _ => true
  | _ :: _, [] => false
  | p :: ps, c :: cs => p == c && substr_at ps cs

/-- Whether `pat` occurs anywhere in `s`. -/
def substr_any (pat : List Char) : List Char → Bool
  | [] => substr_at pat []
  | c :: cs => substr_at pat (c :: cs) || substr_any pat cs

/-- Python's `pat in s` on strings. -/
def containsSubstr (s pat : String) : Bool := substr_any pat.data s.data

/-- The clef-scanning loop `for i in range(1, len(stafflist) - 1)`: scan the
given staves (the caller passes `(stafflist.drop 1).dropLast`, exactly the
staves with indices `1 … len-2`) for the first one whose first token is a
clef; report it together with whether its second token is a flat.  Accessing
`stafflist[i][0]` on an empty staff, or `stafflist[i][1]` on a singleton
staff, raises `IndexError`. -/
def scan_for_clef : List (List Symbol) → Except Err (Option (Symbol × Bool))
  | [] => .ok none
  | staff :: rest =>
    match staff.get? 0 with
    | none => .error .indexError
    | some s0 =>
      if s0.type = "clef" then
        match staff.get? 1 with
        | none => .error .indexError
        | some s1 => .ok (some (s0, s1.type = "flat"))
      else scan_for_clef rest

/-- The clef-resolution part of the `first_staff` block (source lines
219-238).  `staff` is the staff now starting, `prev` the current binding of
`initial_clef` (from an earlier document), `none` when the variable has
never been assigned.  Returns the resolved `initial_clef` together with
`initial_flat_found`.  Note that `initial_clef` is never *assigned* `None`,
so when no clef is found and the variable is unbound, the guard line
`if initial_clef is None:` itself raises `UnboundLocalError`: the explicit
`sys.exit` path (`Err.sysExitNoClef`) is unreachable. -/
def resolve_clef_block (stafflist : List (List Symbol)) (staff : List Symbol)
    (prev : Option Symbol) : Except Err (Symbol × Bool) :=
  match staff.get? 0 with
  | none => .error .indexError
  | some s0 =>
    if s0.type = "clef" then
      match staff.get? 1 with
      | none => .error .indexError
      | some s1 => .ok (s0, s1.type = "flat")
    else
      match scan_for_clef ((stafflist.drop 1).dropLast) with
      | .error e => .error e
      | .ok (some (ic, fl)) => .ok (ic, fl)
      | .ok none =>
        match prev with
        | some ic => .ok (ic, false)
        | none => .error .unboundLocal

/-- `save_mei_file` (source lines 499-523) acting on the machine state: pick
the base name, update `used_filenames`, `filename_counter` and `filename`,
and record the written files (the document tree and, when Humdrum output is
enabled, the *current whole* Humdrum buffer). -/
def save_mei_file_state (hum : Bool) (metadata : List String)
    (stafflistLen ix_staff : Nat) (st : St) : Except Err St :=
  let named : Except Err (String × Nat × List String) :=
    if st.filename ∈ st.used_filenames then
      .ok (st.filename ++ "_" ++ zfill2 (st.filename_counter + 1),
           st.filename_counter + 1, st.used_filenames)
    else
      match metadata.get? ix_staff with
      | none => .error .keyError
      | some label =>
        .ok (label ++ "_01", 1, st.used_filenames ++ [st.filename])
  match named with
  | .error e => .error e
  | .ok (save_name, counter1, used1) =>
    let fn : Except Err String :=
      if ix_staff ≠ stafflistLen - 1 then
        match metadata.get? (ix_staff + 1) with
        | none => .error .keyError
        | some l => .ok l
      else .ok st.filename
    match fn with
    | .error e => .error e
    | .ok filename1 =>
      .ok { st with
            used_filenames := used1
            filename_counter := counter1
            filename := filename1
            outputs := st.outputs ++
              [⟨save_name, st.doc, if hum then st.humdrum else []⟩] }

/-- `del mei` followed by a fresh `mei` tree, `create_meihead` and
`create_mei_declarations` (8 identifier allocations); the `xml_lig` and
`mensur` locals now reference elements of the discarded tree, so their
current-layer indices become stale. -/
def new_document (st : St) : St :=
  { st with
    doc := Doc.empty
    id_counter := st.id_counter + 8
    lig_ref := none
    mens_ref := none }

/-- The prelude run for each staff (source lines 203-259) up to but not
including the flag resets: reset `saved`; at staff 0 create the first
document and seed `filename`; run the `first_staff` block (clef resolution,
clef/key emission) when it is armed. -/
def staff_init_core (hum : Bool) (stafflist : List (List Symbol))
    (metadata : List String) (ix_staff : Nat) (staff : List Symbol)
    (st : St) : Except Err St :=
  let st := { st with saved := false }
  let st0 : Except Err St :=
    if ix_staff = 0 then
      match metadata.get? 0 with
      | none => .error .keyError
      | some f0 =>
        .ok { new_document st with filename := f0, first_staff := true }
    else .ok st
  match st0 with
  | .error e => .error e
  | .ok st =>
    let st1 : Except Err St :=
      if st.first_staff then
        match resolve_clef_block stafflist staff st.initial_clef with
        | .error e => .error e
        | .ok (ic, iff) =>
          let st :=
            { st with
              first_staff := false
              initial_clef := some ic
              clef := some ic
              initial_key := "" }
          match analyse_clef ic.pitch with
          | none => .error .unboundLocal
          | some (shape, line) =>
            let st :=
              { st with
                id_counter := st.id_counter + 1
                doc :=
                  { st.doc with
                    clefShape := some shape
                    clefLine := some line } }
            let st2 : Except Err St :=
              if hum then
                match CLEFS_HUMDRUM ic.pitch with
                | none => .error .keyError
                | some sigil => .ok { st with humdrum := st.humdrum ++ [sigil] }
              else .ok st
            match st2 with
            | .error e => .error e
            | .ok st =>
              if iff then
                let st :=
                  { st with
                    id_counter := st.id_counter + 1
                    doc := { st.doc with keySig := some "1f" }
                    initial_key := "flat" }
                if hum then .ok { st with humdrum := st.humdrum ++ ["*k[b-]"] }
                else .ok st
              else .ok st
      else .ok st
    st1

/-- The full per-staff prelude (source lines 203-262): the core followed by
the `sharp_found`/`flat_found`/`ligature` resets. -/
def staff_init (hum : Bool) (stafflist : List (List Symbol))
    (metadata : List String) (ix_staff : Nat) (staff : List Symbol)
    (st : St) : Except Err St :=
  match staff_init_core hum stafflist metadata ix_staff staff st with
  | .error e => .error e
  | .ok st =>
    .ok { st with
          sharp_found := false
          flat_found := false
          ligature := false }

/-- The buffer effect of the trailing line append (source lines 431-435):
the line itself, plus the two fixed annotation lines when it contains
`custos`. -/
def append_line_post (l : String) (st : St) : St :=
  let st := { st with humdrum := st.humdrum ++ [l] }
  if containsSubstr l "custos" then
    { st with humdrum := st.humdrum ++ ["!!LO:LB:g=z", "=-"] }
  else st

/-- The trailing `if humdrum: humdrum_string.append(humdrum_line)` of the
token loop (source lines 430-435), reached by every token that does not
`continue`; reading an unassigned `humdrum_line` raises. -/
def append_humdrum_line (hum : Bool) (st : St) : Except Err St :=
  if hum then
    match st.humdrum_line with
    | none => .error .unboundLocal
    | some l => .ok (append_line_post l st)
  else .ok st

/-- The `t == 'mens'` branch (source lines 284-308).  A `met_3_2` token
mutates the element the `mensur` local references (invisible in the outputs
when that element belongs to an already finalized document) and rewrites the
last Humdrum line, then continues; any other code appends a new `mensur`
element and queues a `*met(...)` line (the branch then falls through to the
trailing line append, as `'mens'` matches no later branch). -/
def step_mens (hum : Bool) (st : St) (symbol : Symbol) : Except Err St :=
  if symbol.pitch = "met_3_2" then
    if st.mens_bound then
      let st :=
        match st.mens_ref with
        | some i =>
          { st with
            doc := { st.doc with
                     layer := set_mensur_proportion st.doc.layer i } }
        | none => st
      if hum then
        match st.humdrum.getLast? with
        | none => .error .indexError
        | some l =>
          .ok { st with humdrum := st.humdrum.dropLast ++ [met32_rewrite l] }
      else .ok st
    else .error .unboundLocal
  else
    match analyse_mensuration symbol.pitch with
    | none => .error .unboundLocal
    | some (sign, slash) =>
      let layer1 := st.doc.layer ++
        [Elem.mensurE "2" sign (if slash ≠ "" then some slash else none)
          none none]
      let st :=
        { st with
          id_counter := st.id_counter + 1
          doc := { st.doc with layer := layer1 }
          mens_bound := true
          mens_ref := some st.doc.layer.length }
      let met_line := "*met(" ++ sign ++ (if slash ≠ "" then "|" else "") ++ ")"
      let st := if hum then { st with humdrum_line := some met_line } else st
      append_humdrum_line hum st

/-- The `t == 'dot'` branch (source lines 310-317): append a `dot` element;
with Humdrum enabled, rewrite the last buffer line and continue (with it
disabled the branch falls through, but no later branch matches `'dot'`). -/
def step_dot (hum : Bool) (st : St) : Except Err St :=
  let st :=
    { st with
      id_counter := st.id_counter + 1
      doc := { st.doc with layer := st.doc.layer ++ [Elem.dotE] } }
  if hum then
    match st.humdrum.getLast? with
    | none => .error .indexError
    | some l =>
      match dot_rewrite l with
      | none => .error .indexError
      | some l1 => .ok { st with humdrum := st.humdrum.dropLast ++ [l1] }
  else .ok st

/-- The `t in NOTES_MEI.keys()` branch (source lines 328-384): compute the
pitch, build the note, then either open a ligature (`t == 'li'`, which
`continue`s before the accidental code runs), close an open ligature (the
note's duration forced to `semibrevis`, the note moved into the element the
`xml_lig` local references — which drops it from the current document when
that element belongs to an already finalized one), or append a plain note.
Pending sharp/flat set the `accid` attribute on the (possibly moved) note —
with a pending sharp *and* flat, the flat assignment overwrites the sharp —
and are cleared.  `dur` is `NOTES_MEI[t]`. -/
def step_note (hum : Bool) (st : St) (symbol : Symbol) (t dur : String) :
    Except Err St :=
  match st.clef with
  | none => .error .unboundLocal
  | some cl =>
    match analyse_note cl.pitch symbol.pitch with
    | none => .error .keyError
    | some (oct, pname) =>
      let colored : Bool := t == "br" || t == "sb"
      if t = "li" then
        let n : NoteE := ⟨dur, oct, pname, none, colored⟩
        let st :=
          { st with
            id_counter := st.id_counter + 2
            doc := { st.doc with
                     layer := st.doc.layer ++ [Elem.ligatureE "recta" [n]] }
            ligature := true
            lig_ref := some st.doc.layer.length }
        if hum then
          .ok { st with
                humdrum := st.humdrum ++ [get_humdrum_pitch oct pname "[s"] }
        else .ok st
      else
        let accid : Option String :=
          if st.flat_found then some "f"
          else if st.sharp_found then some "s"
          else none
        if st.ligature then
          let n : NoteE := ⟨"semibrevis", oct, pname, accid, colored⟩
          let st1 :=
            { st with
              id_counter := st.id_counter + 1
              ligature := false
              sharp_found := false
              flat_found := false }
          let st1 :=
            match st.lig_ref with
            | some i =>
              { st1 with
                doc := { st1.doc with
                         layer := append_lig_note st1.doc.layer i n } }
            | none => st1
          let line := get_humdrum_pitch oct pname "s" ++ "]" ++
            (if st.sharp_found then "#" else "") ++
            (if st.flat_found then "-" else "")
          let st1 := if hum then { st1 with humdrum_line := some line } else st1
          append_humdrum_line hum st1
        else
          match NOTES_HUMDRUM t with
          | none => .error .keyError
          | some sigil =>
            let n : NoteE := ⟨dur, oct, pname, accid, colored⟩
            let st1 :=
              { st with
                id_counter := st.id_counter + 1
                doc := { st.doc with layer := st.doc.layer ++ [Elem.noteE n] }
                sharp_found := false
                flat_found := false }
            let line := get_humdrum_pitch oct pname sigil ++
              (if st.sharp_found then "#" else "") ++
              (if st.flat_found then "-" else "")
            let st1 :=
              if hum then { st1 with humdrum_line := some line } else st1
            append_humdrum_line hum st1

/-- The state just before the save inside the `t == 'bar'` branch (source
lines 386-394): double barline appended to the layer, terminator lines
appended to the Humdrum buffer. -/
def bar_pre (hum : Bool) (st : St) : St :=
  let st :=
    { st with
      id_counter := st.id_counter + 1
      doc := { st.doc with
               layer := st.doc.layer ++ [Elem.barLineE (some "dbl") none] } }
  if hum then { st with humdrum := st.humdrum ++ ["=||", "*-"] } else st

/-- The `t == 'bar'` branch (source lines 386-411): the pre-save updates,
the `save_mei_file` call, then a fresh document; `first_staff` is re-armed
and `saved` set.  The sharp/flat/ligature flags are *not* touched here. -/
def step_bar (hum : Bool) (metadata : List String) (stafflistLen ix_staff : Nat)
    (st : St) : Except Err St :=
  match save_mei_file_state hum metadata stafflistLen ix_staff
      (bar_pre hum st) with
  | .error e => .error e
  | .ok st => .ok { new_document st with first_staff := true, saved := true }

/-- The `t == 'custos'` branch (source lines 413-428): append a `custos`
element; when a later staff exists, scan it for the first note token and, if
found, set the custos pitch from it (a bad pitch code raises).  The branch
then falls through to the trailing Humdrum line append: with a found note
the line is `'*custos'` plus the pitch suffix (and being a custos line it
gets the two fixed annotation lines after it); with no note found the
*stale* previous `humdrum_line` is appended again. -/
def step_custos (hum : Bool) (stafflist : List (List Symbol)) (ix_staff : Nat)
    (st : St) : Except Err St :=
  let st0 := { st with id_counter := st.id_counter + 1 }
  let looked : Except Err (Option (Int × String)) :=
    if ix_staff < stafflist.length - 1 then
      match stafflist.get? (ix_staff + 1) with
      | none => .error .indexError
      | some nextStaff =>
        match nextStaff.find? (fun s => (NOTES_MEI s.type).isSome) with
        | none => .ok none
        | some s =>
          match st.clef with
          | none => .error .unboundLocal
          | some cl =>
            match analyse_note cl.pitch s.pitch with
            | none => .error .keyError
            | some op => .ok (some op)
    else .ok none
  match looked with
  | .error e => .error e
  | .ok p =>
    let st1 :=
      { st0 with
        doc := { st0.doc with layer := st0.doc.layer ++ [Elem.custosE p] } }
    let st1 :=
      if hum then
        match p with
        | some (o, pn) =>
          { st1 with humdrum_line := some (get_humdrum_pitch o pn "*custos") }
        | none => st1
      else st1
    append_humdrum_line hum st1

/-- One token of the inner loop (source lines 263-435), dispatching in the
source's order.  The branch conditions are mutually exclusive string tests,
so the Python fall-through chain is an if-chain here; branches that set
`humdrum_line` and fall through to the trailing append perform that append
inside their step function. -/
def step_symbol (hum : Bool) (stafflist : List (List Symbol))
    (metadata : List String) (ix_staff ix_symbol : Nat) (st : St)
    (symbol : Symbol) : Except Err St :=
  let t := symbol.type
  if st.initial_clef = some symbol then
    .ok { st with clef := st.initial_clef }
  else if t = st.initial_key ∧ ix_symbol = 1 then .ok st
  else if t = st.initial_key ∧ ix_symbol = 2 ∧
      st.clef.map Symbol.pitch = some "c-c-g" then .ok st
  else if t = "flat" then .ok { st with flat_found := true }
  else if t = "sharp" then .ok { st with sharp_found := true }
  else if t = "mens" then step_mens hum st symbol
  else if t = "dot" then step_dot hum st
  else
    match RESTS_MEI t with
    | some dur =>
      let st :=
        { st with
          id_counter := st.id_counter + 1
          doc := { st.doc with layer := st.doc.layer ++ [Elem.restE dur] } }
      match RESTS_HUMDRUM t with
      | none => .error .keyError
      | some line =>
        let st := if hum then { st with humdrum_line := some line } else st
        append_humdrum_line hum st
    | none =>
      match NOTES_MEI t with
      | some dur => step_note hum st symbol t dur
      | none =>
        if t = "bar" then step_bar hum metadata stafflist.length ix_staff st
        else if t = "custos" then step_custos hum stafflist ix_staff st
        else append_humdrum_line hum st

/-- The inner token loop over one staff, threading the symbol index. -/
def run_symbols (hum : Bool) (stafflist : List (List Symbol))
    (metadata : List String) (ix_staff : Nat) :
    List Symbol → Nat → St → Except Err St
  | [], _, st => .ok st
  | s :: rest, ix, st =>
    match step_symbol hum stafflist metadata ix_staff ix st s with
    | .error e => .error e
    | .ok st1 => run_symbols hum stafflist metadata ix_staff rest (ix + 1) st1

/-- One staff of the outer loop: the prelude, the token loop, and the
invisible barline appended when the staff saw no `bar` token and is not the
last staff (source lines 437-442). -/
def run_staff (hum : Bool) (stafflist : List (List Symbol))
    (metadata : List String) (ix_staff : Nat) (staff : List Symbol)
    (st : St) : Except Err St :=
  match staff_init hum stafflist metadata ix_staff staff st with
  | .error e => .error e
  | .ok st =>
    match run_symbols hum stafflist metadata ix_staff staff 0 st with
    | .error e => .error e
    | .ok st =>
      if ¬ st.saved ∧ ix_staff ≠ stafflist.length - 1 then
        .ok { st with
              id_counter := st.id_counter + 1
              doc := { st.doc with
                       layer := st.doc.layer ++
                         [Elem.barLineE none (some "false")] } }
      else .ok st

/-- The outer loop over the staves. -/
def run_staffs (hum : Bool) (stafflist : List (List Symbol))
    (metadata : List String) : List (List Symbol) → Nat → St → Except Err St
  | [], _, st => .ok st
  | staff :: rest, ix, st =>
    match run_staff hum stafflist metadata ix staff st with
    | .error e => .error e
    | .ok st1 => run_staffs hum stafflist metadata rest (ix + 1) st1

/-- `convert_to_mei_and_humdrum`, from the already-flattened
`(stafflist, metadata)` pair produced by
`convert_to_combined_list_with_metadata` (`metadata` lists the source label
of each staff, in staff order).  After the loop, the outstanding document is
finalized if the last staff did not end in a save; with an empty staff list
the trailing `if not saved:` reads an unassigned loop variable. -/
def convert_to_mei_and_humdrum (stafflist : List (List Symbol))
    (metadata : List String) (hum : Bool) : Except Err St :=
  if stafflist.isEmpty then .error .unboundLocal
  else
    match run_staffs hum stafflist metadata stafflist 0 initSt with
    | .error e => .error e
    | .ok st =>
      if ¬ st.saved then
        save_mei_file_state hum metadata stafflist.length
          (stafflist.length - 1) st
      else .ok st

deriving instance DecidableEq for Except

/-- The single-staff scenario piece of C1:
`[Clef(c-c-g), Flat, Mensuration(met_c), Note(mi, g1), Barline]`. -/
def pieceC1 : List (List Symbol) :=
  [[⟨"clef", "c-c-g"⟩, ⟨"flat", ""⟩, ⟨"mens", "met_c"⟩, ⟨"mi", "g1"⟩,
    ⟨"bar", ""⟩]]


/-! ### Writer naming (save_mei_file, source lines 499-523)

For the per-label counting claim only the naming logic of `save_mei_file`
matters.  `save_mei_file_naming` is that logic verbatim: `curLabel` stands
for `metadata[ix_staff]` and `nextLabel` for `metadata[ix_staff + 1]` when
the saving staff is not the last one (`none` otherwise). -/

/-- The `used_filenames` / `filename_counter` / `filename` trio threaded
through `save_mei_file`. -/
structure SaveSt where
  used_filenames : List String
  filename_counter : Nat
  filename : String
deriving DecidableEq, Repr

/-- One `save_mei_file` call: returns the produced base name and the updated
naming state. -/
def save_mei_file_naming (st : SaveSt) (curLabel : String)
    (nextLabel : Option String) : String × SaveSt :=
  let (save_name, filename_counter, used_filenames) :=
    if st.filename ∈ st.used_filenames then
      (st.filename ++ "_" ++ zfill2 (st.filename_counter + 1),
       st.filename_counter + 1, st.used_filenames)
    else
      (curLabel ++ "_01", 1, st.used_filenames ++ [st.filename])
  let filename :=
    match nextLabel with
    | some l => l
    | none => st.filename
  (save_name,
   { used_filenames := used_filenames, filename_counter := filename_counter,
     filename := filename })

/-- Fold `save_mei_file_naming` over the staff labels in the
one-finalization-per-staff regime: entry `k` of the list is
`metadata[k]`, the label of staff `k`, each staff triggers exactly one
save at its own index, and the `nextLabel` argument is the following
staff's label `metadata[k+1]` — the following list entry.  (With several
finalizations inside one staff the naming differs; see the
counterexample.)  Faithfulness of this fold to `save_mei_file_state` is
proved in `staff_saves_eq`. -/
def run_saves_from (st : SaveSt) : List String → List String
  | [] => []
  | label :: rest =>
    let (name, st1) := save_mei_file_naming st label rest.head?
    name :: run_saves_from st1 rest

/-- All base names produced by a run with the given staff labels, one
finalization per staff, from the run's initial state
(`used_filenames = []`, `filename_counter = 0`,
`filename = metadata[0]`). -/
def run_saves (metadata : List String) : List String :=
  match metadata with
  | [] => []
  | l :: _ =>
    run_saves_from
      { used_filenames := [], filename_counter := 0, filename := l } metadata

/-- A label sequence in which finalizations sharing a label are consecutive,
described as runs: `expand_runs [(A,2),(B,1)] = [A,A,B]`.  This is the shape
`convert_to_combined_list_with_metadata` produces, since a Python dict has
unique keys. -/
def expand_runs : List (String × Nat) → List String
  | [] => []
  | (l, n) :: rest => List.replicate n l ++ expand_runs rest

/-- The names the claim predicts: `label_01 … label_0N` for each run. -/
def expected_names : List (String × Nat) → List String
  | [] => []
  | (l, n) :: rest =>
    ((List.range n).map (fun k => l ++ "_" ++ zfill2 (k + 1))) ++
      expected_names rest

/-- The save pattern of a run in which every staff finalizes exactly one
document: one `save_mei_file` call per staff, in staff order, at the
staff's own index, acting on the full machine state.  The first list
argument mirrors the staff-list traversal of the outer loop (one entry per
remaining staff). -/
def staff_saves (md : List String) (len : Nat) :
    List String → Nat → St → Except Err St
  | [], _, st => .ok st
  | _ :: rest, ix, st =>
    match save_mei_file_state true md len ix st with
    | .error e => .error e
    | .ok st1 => staff_saves md len rest (ix + 1) st1

/-- The machine state at the first save of a run: no used names, counter 0,
`filename` seeded with the first staff's label (source line 213). -/
def namingInit (md : List String) : St :=
  { initSt with filename := md.headD "" }

/-! ### Pitch formula of the specification (for the refinement claim C2) -/

/-- The 7 defined clef codes. -/
def clefCodes : List String :=
  ["c-c-g", "c-c-e", "c-c-b", "c-c-d", "c-g", "c-f-b", "c-f"]

/-- The 21 step codes of the fixed table. -/
def stepCodes : List String :=
  ["c0", "d0", "e0", "f0", "g0", "a0", "b0",
   "c1", "d1", "e1", "f1", "g1", "a1", "b1",
   "c2", "d2", "e2", "f2", "g2", "a2", "b2"]

/-- `rel = step_position(step_code) - clef_reference_step(clef)` (total on
the two fixed tables; the default is never used for codes from the lists
above). -/
def relD (c s : String) : Int :=
  (MENSURAL_NOTE_STEPS s).getD 0 - (clef_reference_step c).getD 0

/-- Octave formula as the specification words it: baseline 4, minus 1 on
`rel ∈ [-7,0)`, plus 1 on `rel > 6`, minus 2 on `rel ∈ [-14,-7)`, else
unchanged. -/
def spec_octave_of_rel (rel : Int) : Int :=
  if -7 ≤ rel ∧ rel < 0 then 4 - 1
  else if rel > 6 then 4 + 1
  else if -14 ≤ rel ∧ rel < -7 then 4 - 2
  else 4

/-- Letter formula as the specification words it: `rel mod 7` through the
c-d-e-f-g-a-b cycle, negative remainders wrapping backward (i.e. the
mathematical modulus, which `Int.emod` with positive modulus computes). -/
def spec_letter_of_rel (rel : Int) : String :=
  if rel % 7 = 0 then "c"
  else if rel % 7 = 1 then "d"
  else if rel % 7 = 2 then "e"
  else if rel % 7 = 3 then "f"
  else if rel % 7 = 4 then "g"
  else if rel % 7 = 5 then "a"
  else "b"

/-! ### ID allocator (increment_idcounter and the pool of
generate_random_numbers) -/

/-- `increment_idcounter` on an explicit counter: returns the new counter
both as the new state and as the produced index. -/
def increment_idcounter (id_counter : Nat) : Nat × Nat :=
  (id_counter + 1, id_counter + 1)

/-- The counter value after `n` allocations in a fresh process (the module
global starts at 0). -/
def id_counter_after : Nat → Nat
  | 0 => 0
  | n + 1 => (increment_idcounter (id_counter_after n)).1

/-- The pool entry handed to the `n`-th allocation (0-based):
`ids[increment_idcounter()]`; `none` is Python's `IndexError` when the pool
is exhausted. -/
def alloc_return (ids : List String) (n : Nat) : Option String :=
  ids.get? (increment_idcounter (id_counter_after n)).2

/-- Postcondition of `generate_random_numbers num_elements`
(utils.py, lines 156-164): the function accumulates 10-digit strings in a
Python *set* until it holds `num_elements` of them and returns them as a
list, so the result is a list of exactly `num_elements` pairwise-distinct
strings.  The random choice itself is not embeddable; every theorem about
the pool quantifies over lists satisfying this postcondition. -/
def generate_random_numbers_post (num_elements : Nat)
    (out : List String) : Prop :=
  out.Nodup ∧ out.length = num_elements

/-! ### Concrete pieces and auxiliary definitions used by the theorems -/

/-- `Except.isOk` as a local helper. -/
def except_ok : Except Err St → Bool
  | .ok _ => true
  | .error _ => false

/-- The `accid` attributes of the plain notes of a document's layer, in
order. -/
def doc_note_accids (d : Doc) : List (Option String) :=
  d.layer.filterMap
    (fun e =>
      match e with
      | .noteE n => some n.accid
      | _ => none)

/-- The ligature elements of a document's layer (form and contained notes). -/
def doc_ligatures (d : Doc) : List (String × List NoteE) :=
  d.layer.filterMap
    (fun e =>
      match e with
      | .ligatureE f ns => some (f, ns)
      | _ => none)

/-- A piece whose first staff has a barline in mid-staff with a flat still
pending, followed by a second staff: exercises the barline reset claim. -/
def pieceC3 : List (List Symbol) :=
  [[⟨"clef", "c-c-g"⟩, ⟨"mi", "g1"⟩, ⟨"flat", ""⟩, ⟨"bar", ""⟩, ⟨"mi", "g1"⟩],
   [⟨"mi", "g1"⟩, ⟨"bar", ""⟩]]

/-- A single staff finalizing two documents: exercises the cumulative
Humdrum buffer. -/
def pieceC4 : List (List Symbol) :=
  [[⟨"clef", "c-c-g"⟩, ⟨"mi", "g1"⟩, ⟨"bar", ""⟩, ⟨"mi", "g1"⟩,
    ⟨"bar", ""⟩]]

/-- A staff with two adjacent ligature-kind notes: exercises the ligature
pairing claim at `K = "li"`. -/
def pieceC7 : List (List Symbol) :=
  [[⟨"clef", "c-c-g"⟩, ⟨"li", "g1"⟩, ⟨"li", "g1"⟩, ⟨"bar", ""⟩]]

/-- A piece whose first staff finalizes two documents (two Barlines); the
second staff's document is finalized at end of stream.  With labels
`["A", "B"]` three documents are finalized, the first two from staff 0
(label `A`), the third from staff 1 (label `B`). -/
def pieceC6 : List (List Symbol) :=
  [[⟨"clef", "c-c-g"⟩, ⟨"bar", ""⟩, ⟨"bar", ""⟩], [⟨"mi", "g1"⟩]]

/-- Head of a list of labels, with a default. -/
def headOr (t : List String) (d : String) : String :=
  match t.head? with
  | some x => x
  | none => d

/-- A mid-conversion state with the governing clef resolved to `c-c-g` and
the key resolved one-flat (used to instantiate the state-level theorems). -/
def stW : St :=
  { initSt with
    initial_clef := some ⟨"clef", "c-c-g"⟩
    clef := some ⟨"clef", "c-c-g"⟩
    initial_key := "flat" }

/-- The state `stW` with a flat accidental pending. -/
def stWflat : St := { stW with flat_found := true }

/-- A deterministic pool of 10000 pairwise-distinct strings, standing in for
one output of `generate_random_numbers 10000`. -/
def witness_pool : List String :=
  (List.range' 0 10000).map (fun n => String.mk (List.replicate n 'a'))

/-- Invariant carried through the conversion loop (Humdrum enabled): the
buffer starts with the declaration line and has at least two lines once the
first staff prelude ran; every recorded output snapshot starts with the
declaration line, ends with the double-barline/terminator pair, is no longer
than the current buffer, and — apart from its last line, which a later `dot`
or `met_3_2` token may rewrite — is an initial segment of the current
buffer; consecutive snapshots extend each other the same way. -/
def BufInv (st : St) : Prop :=
  st.humdrum.head? = some "**mens" ∧ 2 ≤ st.humdrum.length ∧
  (∀ o ∈ st.outputs,
    o.humdrum.head? = some "**mens" ∧
    (∃ pre, o.humdrum = pre ++ ["=||", "*-"]) ∧
    o.humdrum.length ≤ st.humdrum.length ∧
    (∃ suf, st.humdrum = o.humdrum.dropLast ++ suf)) ∧
  List.Chain' (fun a b => ∃ suf, b.humdrum = a.humdrum.dropLast ++ suf)
    st.outputs

/-- The three ways one token step changes the Humdrum buffer and the
recorded outputs (Humdrum enabled): extend the buffer; rewrite its last
line in place (`dot`, `met_3_2`); or append the terminator pair and record
a snapshot of the whole buffer (`bar`). -/
def BufStep (st st2 : St) : Prop :=
  (∃ suf, st2.humdrum = st.humdrum ++ suf ∧ st2.outputs = st.outputs) ∨
  (∃ x, st2.humdrum = st.humdrum.dropLast ++ [x] ∧
    st2.outputs = st.outputs) ∨
  (∃ name d, st2.humdrum = st.humdrum ++ ["=||", "*-"] ∧
    st2.outputs = st.outputs ++
      [⟨name, d, st.humdrum ++ ["=||", "*-"]⟩])

/-- The final state of the conversion of the C1 scenario piece (used to
instantiate the run-wide buffer theorem). -/
def c4_state : St :=
  match convert_to_mei_and_humdrum pieceC1 ["piece"] true with
  | .ok st => st
  | .error _ => initSt

/-! ## Theorems -/

/-- C1, counterexample: on the scenario piece
`[Clef(c-c-g), Flat, Mensuration(met_c), Note(mi, g1), Barline]` the
produced document does have clef C/2, a one-flat key signature, a
slash-less C mensuration, exactly one minima note in octave 4 and a double
barline — but the note's letter is "c", not "g": `g1` equals the C-clef's
reference step, and the code maps relative step 0 to the letter "c" (the
pitch the C-clef marks), exactly as the specification's own `pitch_for`
formula prescribes. -/
theorem C1_counterexample :
    (convert_to_mei_and_humdrum pieceC1 ["piece"] true).map
        (fun st => st.outputs.map (fun o => o.doc.layer)) =
      Except.ok
        [[Elem.mensurE "2" "C" none none none,
          Elem.noteE ⟨"minima", 4, "c", none, false⟩,
          Elem.barLineE (some "dbl") none]] ∧
    ("c" : String) ≠ "g" :=
  ⟨by decide, by decide⟩

/-- C1, amended: for the scenario piece the produced document contains a
clef with shape "C" and line "2", a one-flat key signature, a mensuration
with sign "C" and no slash, exactly one note with duration "minima", octave
4 and letter "c" (not "g"), and a double barline. -/
theorem C1_theorem :
    (convert_to_mei_and_humdrum pieceC1 ["piece"] true).map St.outputs =
      Except.ok
        [⟨"piece_01",
          ⟨some "C", some "2", some "1f",
            [Elem.mensurE "2" "C" none none none,
             Elem.noteE ⟨"minima", 4, "c", none, false⟩,
             Elem.barLineE (some "dbl") none]⟩,
          ["**mens", "*clefC2", "*k[b-]", "*met(C)", "Mc", "=||", "*-"]⟩] := by
  decide

/-- C2, counterexample: the clef "c-f" and the step "c0" are both in the
fixed tables, yet the pitch computation is undefined there: the relative
step is -19, below every key of `RELATIVE_NOTE_STEPS`, so Python raises
`KeyError` instead of returning a result. -/
theorem C2_counterexample :
    "c-f" ∈ clefCodes ∧ "c0" ∈ stepCodes ∧
    analyse_note "c-f" "c0" = none := by
  decide

/-- C2, amended: for every clef among the 7 defined clef codes and every
step code in the fixed 21-step table *whose relative step is at least -14*,
`analyse_note` returns a defined result whose octave and diatonic letter
follow exactly the claimed formulas (baseline octave 4 with the three shift
bands, letter = rel mod 7 through the c-d-e-f-g-a-b cycle); for smaller
relative steps the lookup is undefined. -/
theorem C2_theorem :
    ∀ c ∈ clefCodes, ∀ s ∈ stepCodes, -14 ≤ relD c s →
      analyse_note c s =
        some (spec_octave_of_rel (relD c s), spec_letter_of_rel (relD c s)) := by
  decide

/-- Witness for C2 at the clef `c-c-g` and step `g1` (relative step 0). -/
theorem C2_witness :
    analyse_note "c-c-g" "g1" =
      some (spec_octave_of_rel (relD "c-c-g" "g1"),
            spec_letter_of_rel (relD "c-c-g" "g1")) :=
  C2_theorem "c-c-g" (by decide) "g1" (by decide) (by decide)

/-- C5 is a code bug: on a piece with no clef anywhere (here the single
staff `[Note(mi, g1)]`), the conversion does abort before writing any
output, but *not* through the explicit missing-clef abort path, whose guard
`if initial_clef is None:` reads the never-assigned local and raises
`UnboundLocalError` first; the diagnostic `sys.exit` (`Err.sysExitNoClef`)
is unreachable. -/
theorem C5_theorem :
    convert_to_mei_and_humdrum [[⟨"mi", "g1"⟩]] ["p"] true =
      Except.error Err.unboundLocal ∧
    Err.unboundLocal ≠ Err.sysExitNoClef :=
  ⟨by decide, by decide⟩

/-- C3, counterexample: in `pieceC3` a flat is pending when the mid-staff
Barline is processed.  The Barline finalizes the first document, but the
pending-flat flag is *not* reset (the flags are only re-initialised at each
staff start), so the first note of the newly opened document is emitted with
`accid = "f"` — the accidental leaks across the document boundary,
contradicting the claim for mid-staff Barlines. -/
theorem C3_counterexample :
    (convert_to_mei_and_humdrum pieceC3 ["p", "p"] true).map
        (fun st => st.outputs.map (fun o => doc_note_accids o.doc)) =
      Except.ok [[none], [some "f", none]] ∧
    some "f" ≠ (none : Option String) :=
  ⟨by decide, by decide⟩

/-- C4, counterexample: `pieceC4` finalizes two documents.  The flat file of
the second document is the whole cumulative buffer: it repeats the first
document's token lines (the note line "Mc" and the terminator pair appear
twice), contradicting "contains only that document's token lines". -/
theorem C4_counterexample :
    (convert_to_mei_and_humdrum pieceC4 ["p"] true).map
        (fun st => st.outputs.map Output.humdrum) =
      Except.ok
        [["**mens", "*clefC2", "Mc", "=||", "*-"],
         ["**mens", "*clefC2", "Mc", "=||", "*-", "Mc", "=||", "*-"]] ∧
    (["**mens", "*clefC2", "Mc", "=||", "*-", "Mc", "=||", "*-"].count
        ("=||" : String)) = 2 :=
  ⟨by decide, by decide⟩

/-- C7, counterexample: for the adjacent pair
`[Note(li, g1), Note(li, g1)]` the second `li` note does not close the
open ligature — the `t == 'li'` branch runs before the ligature-closing
branch — so *two* ligature containers are produced, each holding a single
note, contradicting "exactly one ligature container containing exactly two
notes" for `K = "li"`. -/
theorem C7_counterexample :
    (convert_to_mei_and_humdrum pieceC7 ["p"] true).map
        (fun st => st.outputs.map (fun o => doc_ligatures o.doc)) =
      Except.ok
        [[("recta", [⟨"semibrevis", 4, "c", none, false⟩]),
          ("recta", [⟨"semibrevis", 4, "c", none, false⟩])]] ∧
    (2 : Nat) ≠ 1 :=
  ⟨by decide, by decide⟩

/-- C9: when the key was resolved one-flat, a Flat token at index 1 of any
staff is silently discarded (the token step returns the state unchanged:
no element, no line, no pending flag), and a Flat token at index 2 of any
staff is likewise discarded when the governing clef code is `c-c-g`. -/
theorem C9_theorem :
    (∀ (hum : Bool) (stafflist : List (List Symbol)) (metadata : List String)
        (ix_staff : Nat) (st : St) (p : String) (ic : Symbol),
        st.initial_clef = some ic → ic.type = "clef" →
        st.initial_key = "flat" →
        step_symbol hum stafflist metadata ix_staff 1 st ⟨"flat", p⟩ =
          Except.ok st) ∧
    (∀ (hum : Bool) (stafflist : List (List Symbol)) (metadata : List String)
        (ix_staff : Nat) (st : St) (p : String) (ic c : Symbol),
        st.initial_clef = some ic → ic.type = "clef" →
        st.initial_key = "flat" →
        st.clef = some c → c.pitch = "c-c-g" →
        step_symbol hum stafflist metadata ix_staff 2 st ⟨"flat", p⟩ =
          Except.ok st) := by
  constructor
  · intro hum sl md ix st p ic hic hty hkey
    have hne : ¬ st.initial_clef = some (⟨"flat", p⟩ : Symbol) := by
      rw [hic]
      intro h
      have h2 : ic = ⟨"flat", p⟩ := Option.some.inj h
      rw [h2] at hty
      simp at hty
    unfold step_symbol
    rw [if_neg hne, hkey]
    rw [if_pos ⟨rfl, rfl⟩]
  · intro hum sl md ix st p ic c hic hty hkey hc hp
    have hne : ¬ st.initial_clef = some (⟨"flat", p⟩ : Symbol) := by
      rw [hic]
      intro h
      have h2 : ic = ⟨"flat", p⟩ := Option.some.inj h
      rw [h2] at hty
      simp at hty
    unfold step_symbol
    rw [if_neg hne, hkey]
    rw [if_neg (by intro h; exact absurd h.2 (by decide))]
    rw [if_pos ⟨rfl, rfl, by rw [hc]; simp [hp]⟩]

/-- Witness for C9 at the resolved state `stW` (clef `c-c-g`, one-flat
key): a flat at index 1 and a flat at index 2 both leave the state
unchanged. -/
theorem C9_witness :
    step_symbol true [] [] 0 1 stW ⟨"flat", ""⟩ = Except.ok stW ∧
    step_symbol true [] [] 0 2 stW ⟨"flat", ""⟩ = Except.ok stW :=
  ⟨C9_theorem.1 true [] [] 0 stW "" ⟨"clef", "c-c-g"⟩ rfl rfl rfl,
   C9_theorem.2 true [] [] 0 stW "" ⟨"clef", "c-c-g"⟩ ⟨"clef", "c-c-g"⟩
     rfl rfl rfl rfl rfl⟩

/-- Helper: uppercasing preserves the length of a string. -/
theorem str_upper_length (s : String) : (str_upper s).length = s.length := by
  show (s.data.map Char.toUpper).length = s.length
  rw [List.length_map]
  rfl

/-- Helper: a value returned by an association-list lookup is among the
stored values. -/
theorem lookup_snd_mem {α β : Type} [BEq α] (l : List (α × β)) :
    ∀ (a : α) (b : β), List.lookup a l = some b → b ∈ l.map Prod.snd := by
  induction l with
  | nil => intro a b h; simp [List.lookup] at h
  | cons p rest ih =>
    intro a b h
    cases p with
    | mk k v =>
      cases hab : (a == k) with
      | true =>
        simp only [List.lookup, hab] at h
        injection h with h2
        subst h2
        simp
      | false =>
        simp only [List.lookup, hab] at h
        exact List.mem_cons_of_mem _ (ih a b h)

/-- Helper: every letter produced by `RELATIVE_NOTE_STEPS` is a single
character. -/
theorem relative_letter_length {k : Int} {s : String}
    (h : RELATIVE_NOTE_STEPS k = some s) : s.length = 1 := by
  have hm := lookup_snd_mem RELATIVE_NOTE_STEPS_TABLE k s h
  have hall : ∀ x ∈ RELATIVE_NOTE_STEPS_TABLE.map Prod.snd, x.length = 1 := by
    decide
  exact hall s hm

/-- Helper: on octaves 2-5 with a one-character letter,
`get_humdrum_pitch` strictly lengthens its line. -/
theorem get_humdrum_pitch_lengthens {o : Int}
    (ho : o = 2 ∨ o = 3 ∨ o = 4 ∨ o = 5) {pn : String} (h1 : pn.length = 1)
    (line : String) :
    line.length < (get_humdrum_pitch o pn line).length := by
  rcases ho with rfl | rfl | rfl | rfl <;>
    simp [get_humdrum_pitch, String.length_append, str_upper_length, h1] <;>
    omega

/-- C10: whenever the pitch computation returns a result, the octave is one
of 2, 3, 4, 5, and consequently `get_humdrum_pitch` always appends a
non-empty letter suffix — it never returns the given line unchanged, for
every note and custos actually emitted. -/
theorem C10_theorem :
    ∀ (c p : String) (oct : Int) (pn : String),
      analyse_note c p = some (oct, pn) →
        (oct = 2 ∨ oct = 3 ∨ oct = 4 ∨ oct = 5) ∧
        ∀ line : String,
          line.length < (get_humdrum_pitch oct pn line).length ∧
          get_humdrum_pitch oct pn line ≠ line := by
  intro c p oct pn h
  unfold analyse_note at h
  cases hc : clef_reference_step c with
  | none => rw [hc] at h; simp at h
  | some clefline =>
    cases hp : MENSURAL_NOTE_STEPS p with
    | none => rw [hc, hp] at h; simp at h
    | some pitchline =>
      rw [hc, hp] at h
      simp only [Option.bind_eq_bind, Option.some_bind] at h
      have main :
          (oct = 2 ∨ oct = 3 ∨ oct = 4 ∨ oct = 5) ∧ pn.length = 1 := by
        split_ifs at h with h1 h2 h3 <;>
          · rcases Option.map_eq_some'.mp h with ⟨s, hs, hfs⟩
            injection hfs with hf1 hf2
            subst hf2
            refine ⟨?_, relative_letter_length hs⟩
            omega
      refine ⟨main.1, fun line => ?_⟩
      have hlt := get_humdrum_pitch_lengthens main.1 main.2 line
      refine ⟨hlt, fun he => ?_⟩
      rw [he] at hlt
      exact Nat.lt_irrefl _ hlt

/-- Witness for C10 at clef `c-c-g`, step `g1` (octave 4, letter "c") and
the line "M". -/
theorem C10_witness :
    ((4 : Int) = 2 ∨ (4 : Int) = 3 ∨ (4 : Int) = 4 ∨ (4 : Int) = 5) ∧
    ("M" : String).length < (get_humdrum_pitch 4 "c" "M").length ∧
    get_humdrum_pitch 4 "c" "M" ≠ "M" := by
  have h := C10_theorem "c-c-g" "g1" 4 "c" (by decide)
  exact ⟨h.1, h.2 "M"⟩

/-- Helper: the identifier counter equals the number of allocations made. -/
theorem id_counter_after_eq (n : Nat) : id_counter_after n = n := by
  induction n with
  | zero => rfl
  | succ m ih => simp [id_counter_after, increment_idcounter, ih]

/-- C8: in a fresh process, with a pool from `generate_random_numbers 10000`
and no more elements emitted than the pool admits, any two distinct emitted
elements carry distinct identifiers — the pool entries are pairwise distinct
and the strictly increasing counter hands them out without replacement. -/
theorem C8_theorem :
    ∀ ids : List String, generate_random_numbers_post 10000 ids →
      ∀ (i j : Nat) (x y : String), i < 10000 → j < 10000 → i ≠ j →
        alloc_return ids i = some x → alloc_return ids j = some y →
        x ≠ y := by
  intro ids hpost i j x y hi hj hij hx hy heq
  obtain ⟨hnd, hlen⟩ := hpost
  subst heq
  have hxi : ids[i + 1]? = some x := by
    simpa [alloc_return, increment_idcounter, id_counter_after_eq,
      List.get?_eq_getElem?] using hx
  have hyj : ids[j + 1]? = some x := by
    simpa [alloc_return, increment_idcounter, id_counter_after_eq,
      List.get?_eq_getElem?] using hy
  have hlti : i + 1 < ids.length := by
    by_contra hge
    rw [List.getElem?_eq_none (Nat.le_of_not_lt hge)] at hxi
    exact Option.noConfusion hxi
  have : i + 1 = j + 1 :=
    List.getElem?_inj hlti hnd (by rw [hxi, hyj])
  omega

/-- Helper: the deterministic witness pool satisfies the
`generate_random_numbers` postcondition. -/
theorem witness_pool_post : generate_random_numbers_post 10000 witness_pool := by
  constructor
  · refine List.Nodup.map ?_ (List.nodup_range' 0 10000)
    intro a b hab
    have h2 := congrArg String.length hab
    have h3 : (List.replicate a 'a').length = (List.replicate b 'a').length :=
      h2
    simpa [List.length_replicate] using h3
  · simp [witness_pool]

set_option maxRecDepth 8000 in
/-- Witness for C8: allocations 0 and 1 from the witness pool return "a"
and "aa", which differ. -/
theorem C8_witness : ("a" : String) ≠ "aa" :=
  C8_theorem witness_pool witness_pool_post 0 1 "a" "aa"
    (by decide) (by decide) (by decide) (by decide) (by decide)

/-- C6, counterexample: the naming state is run-wide, not per-label, and
the `filename` variable used for the membership test is re-seeded with the
*next staff's* label at every save.  In `pieceC6` (labels `["A", "B"]`)
the three finalizations carry the labels `[A, A, B]` â consecutive for
each label â yet the produced base names are `[A_01, A_01, B_02]`: the
name `A_01` is produced twice, `A_02` never appears, and `B`'s first name
is `B_02`, contradicting "exactly <label>_01 … <label>_0N with no gaps
and no repeats". -/
theorem C6_counterexample :
    (convert_to_mei_and_humdrum pieceC6 ["A", "B"] true).map
        (fun st => st.outputs.map Output.save_name) =
      Except.ok ["A_01", "A_01", "B_02"] ∧
    ¬ (["A_01", "A_01", "B_02"] : List String).Nodup :=
  ⟨by decide, by decide⟩

/-- Helper: within one label run (after its first save), each further save
of the same label increments the single counter and appends it
zero-padded. -/
theorem run_saves_replicate (l : String) :
    ∀ (m : Nat) (st : SaveSt) (tail : List String),
      st.filename = l → l ∈ st.used_filenames →
      run_saves_from st (List.replicate (m + 1) l ++ tail) =
        ((List.range (m + 1)).map
          (fun k => l ++ "_" ++ zfill2 (st.filename_counter + k + 1))) ++
        run_saves_from
          ⟨st.used_filenames, st.filename_counter + (m + 1), headOr tail l⟩
          tail := by
  intro m
  induction m with
  | zero =>
    intro st tail hfn hmem
    rw [show List.replicate 1 l ++ tail = l :: tail by simp]
    rw [run_saves_from]
    simp only [save_mei_file_naming, hfn, if_pos hmem]
    cases htl : tail.head? with
    | none => simp [headOr, htl, List.range_succ]
    | some x => simp [headOr, htl, List.range_succ]
  | succ n ih =>
    intro st tail hfn hmem
    rw [show List.replicate (n + 1 + 1) l ++ tail =
          l :: (List.replicate (n + 1) l ++ tail) by
        rw [List.replicate_succ]; simp]
    rw [run_saves_from]
    simp only [save_mei_file_naming, hfn, if_pos hmem]
    have hhead : (List.replicate (n + 1) l ++ tail).head? = some l := by
      rw [List.replicate_succ]; simp
    rw [hhead]
    have ihapp := ih ⟨st.used_filenames, st.filename_counter + 1, l⟩ tail rfl hmem
    simp only at ihapp
    rw [ihapp]
    rw [show st.filename_counter + 1 + (n + 1) =
          st.filename_counter + (n + 1 + 1) from by omega]
    conv_rhs => rw [List.range_succ_eq_map]
    simp only [List.map_cons, List.map_map, List.cons_append]
    have hfun : (fun k => l ++ "_" ++
          zfill2 (st.filename_counter + 1 + k + 1)) =
        ((fun k => l ++ "_" ++ zfill2 (st.filename_counter + k + 1)) ∘
          Nat.succ) := by
      funext j
      show l ++ "_" ++ zfill2 (st.filename_counter + 1 + j + 1) =
        l ++ "_" ++ zfill2 (st.filename_counter + (j + 1) + 1)
      rw [show st.filename_counter + 1 + j + 1 =
            st.filename_counter + (j + 1) + 1 from by omega]
    rw [hfun]

/-- Helper: `run_saves_from` on label-grouped finalizations produces the
per-run numbered names, provided no run label was used before and the
threaded `filename` matches the first run label. -/
theorem run_saves_from_runs :
    ∀ (runs : List (String × Nat)) (st : SaveSt),
      (runs.map Prod.fst).Nodup →
      (∀ p ∈ runs, 0 < p.2) →
      (∀ p ∈ runs, p.1 ∉ st.used_filenames) →
      (∀ l n rest, runs = (l, n) :: rest → st.filename = l) →
      run_saves_from st (expand_runs runs) = expected_names runs := by
  intro runs
  induction runs with
  | nil => intro st _ _ _ _; rfl
  | cons p rest ih =>
    intro st hnd hpos hused hfn
    cases p with
    | mk l n =>
      have hn : 0 < n := hpos (l, n) (List.mem_cons_self _ _)
      have hfl : st.filename = l := hfn l n rest rfl
      have hlused : l ∉ st.used_filenames := hused (l, n) (List.mem_cons_self _ _)
      have hnd2 : (rest.map Prod.fst).Nodup := (List.nodup_cons.mp hnd).2
      have hlnot : l ∉ rest.map Prod.fst := (List.nodup_cons.mp hnd).1
      have hpos2 : ∀ p ∈ rest, 0 < p.2 := fun p hp => hpos p (List.mem_cons_of_mem _ hp)
      have hused2 : ∀ p ∈ rest, p.1 ∉ st.used_filenames ++ [l] := by
        intro p hp hmem
        rcases List.mem_append.mp hmem with hin | hin
        · exact hused p (List.mem_cons_of_mem _ hp) hin
        · have : p.1 = l := by simpa using hin
          exact hlnot (this ▸ List.mem_map_of_mem Prod.fst hp)
      have hrest_head : ∀ l2 n2 rest2, rest = (l2, n2) :: rest2 →
          (expand_runs rest).head? = some l2 := by
        intro l2 n2 rest2 hr
        have hn2 : 0 < n2 := by
          have := hpos2 (l2, n2) (by rw [hr]; exact List.mem_cons_self _ _)
          simpa using this
        cases n2 with
        | zero => omega
        | succ k =>
          rw [hr]
          show (expand_runs ((l2, k + 1) :: rest2)).head? = some l2
          rw [show expand_runs ((l2, k + 1) :: rest2) =
                List.replicate (k + 1) l2 ++ expand_runs rest2 from rfl]
          rw [List.replicate_succ]
          simp
      cases n with
      | zero => omega
      | succ m =>
        rw [show expand_runs ((l, m + 1) :: rest) =
              l :: (List.replicate m l ++ expand_runs rest) by
            show List.replicate (m + 1) l ++ expand_runs rest = _
            rw [List.replicate_succ]; simp]
        rw [run_saves_from]
        simp only [save_mei_file_naming, hfl, if_neg hlused]
        cases m with
        | zero =>
          simp only [List.replicate, List.nil_append]
          have hfn2 : ∀ l2 n2 rest2, rest = (l2, n2) :: rest2 →
              (match (expand_runs rest).head? with
                | some x => x
                | none => l) = l2 := by
            intro l2 n2 rest2 hr
            rw [hrest_head l2 n2 rest2 hr]
          rw [ih ⟨st.used_filenames ++ [l], 1,
                match (expand_runs rest).head? with
                | some x => x
                | none => l⟩
              hnd2 hpos2 hused2 hfn2]
          show (l ++ "_01") :: expected_names rest =
            expected_names ((l, 1) :: rest)
          rw [show expected_names ((l, 1) :: rest) =
                ((List.range 1).map (fun k => l ++ "_" ++ zfill2 (k + 1))) ++
                  expected_names rest from rfl]
          simp only [List.range_succ, List.range_zero, List.map_cons,
            List.map_nil, List.nil_append, List.cons_append]
          rw [show zfill2 (0 + 1) = "01" from by decide]
          rw [String.append_assoc]
          rw [show ("_" : String) ++ "01" = "_01" from by decide]
        | succ k =>
          have hhead : (List.replicate (k + 1) l ++ expand_runs rest).head? =
              some l := by
            rw [List.replicate_succ]; simp
          rw [hhead]
          rw [run_saves_replicate l k
            ⟨st.used_filenames ++ [l], 1, l⟩
            (expand_runs rest) rfl (by simp)]
          simp only []
          have hfn3 : ∀ l2 n2 rest2, rest = (l2, n2) :: rest2 →
              headOr (expand_runs rest) l = l2 := by
            intro l2 n2 rest2 hr
            unfold headOr
            rw [hrest_head l2 n2 rest2 hr]
          rw [ih ⟨st.used_filenames ++ [l], 1 + (k + 1),
                headOr (expand_runs rest) l⟩
              hnd2 hpos2 hused2 hfn3]
          show (l ++ "_01") ::
              ((List.range (k + 1)).map
                (fun j => l ++ "_" ++ zfill2 (1 + j + 1)) ++
                expected_names rest) =
            expected_names ((l, k + 1 + 1) :: rest)
          rw [show expected_names ((l, k + 1 + 1) :: rest) =
                ((List.range (k + 1 + 1)).map
                  (fun j => l ++ "_" ++ zfill2 (j + 1))) ++
                  expected_names rest from rfl]
          conv_rhs => rw [List.range_succ_eq_map]
          conv_rhs => rw [List.range_succ_eq_map]
          simp only [List.map_cons, List.map_map, List.cons_append]
          congr 1
          · rw [show (0 : Nat) + 1 = 1 from by omega]
            rw [show zfill2 1 = "01" from by decide]
            rw [String.append_assoc]
            rw [show ("_" : String) ++ "01" = "_01" from by decide]
          conv_lhs => rw [List.range_succ_eq_map]
          simp only [List.map_cons, List.map_map, List.cons_append]
          have hfun2 : ((fun j => l ++ "_" ++ zfill2 (1 + j + 1)) ∘
                Nat.succ) =
              ((fun j => l ++ "_" ++ zfill2 (j + 1)) ∘ Nat.succ ∘
                Nat.succ) := by
            funext j
            show l ++ "_" ++ zfill2 (1 + (j + 1) + 1) =
              l ++ "_" ++ zfill2 (Nat.succ (Nat.succ j) + 1)
            rw [show 1 + (j + 1) + 1 = Nat.succ (Nat.succ j) + 1 from by
              omega]
          rw [hfun2]

/-- Helper: `run_saves` on label-grouped staff labels produces the per-run
numbered names: for pairwise-distinct labels and positive counts, a group
of N staffs labelled `label` yields exactly `label_01 … label_0N`, in
order. -/
theorem run_saves_grouped :
    ∀ runs : List (String × Nat),
      (runs.map Prod.fst).Nodup → (∀ p ∈ runs, 0 < p.2) →
      run_saves (expand_runs runs) = expected_names runs := by
  intro runs hnd hpos
  cases runs with
  | nil => rfl
  | cons p rest =>
    cases p with
    | mk l n =>
      have hn : 0 < n := by
        have := hpos (l, n) (List.mem_cons_self _ _)
        simpa using this
      cases n with
      | zero => omega
      | succ m =>
        have hexp : expand_runs ((l, m + 1) :: rest) =
            l :: (List.replicate m l ++ expand_runs rest) := by
          show List.replicate (m + 1) l ++ expand_runs rest = _
          rw [List.replicate_succ]
          simp
        rw [hexp]
        show run_saves_from
            { used_filenames := [], filename_counter := 0, filename := l }
            (l :: (List.replicate m l ++ expand_runs rest)) =
          expected_names ((l, m + 1) :: rest)
        rw [← hexp]
        exact run_saves_from_runs ((l, m + 1) :: rest)
          { used_filenames := [], filename_counter := 0, filename := l }
          hnd hpos (by intro p _ hmem; simp at hmem)
          (by intro l2 n2 rest2 hr; cases hr; rfl)

/-- Helper: a symbol whose type is not "clef" never equals the resolved
initial clef. -/
theorem initial_clef_ne (st : St) (ic : Symbol)
    (hic : st.initial_clef = some ic) (hty : ic.type = "clef") (s : Symbol)
    (hs : s.type ≠ "clef") : ¬ st.initial_clef = some s := by
  rw [hic]
  intro h
  have h2 := Option.some.inj h
  rw [h2] at hty
  exact hs hty

/-- Helper: dispatch of `step_symbol` for a token that takes none of the
skip/flag/mens/dot/rest branches. -/
theorem step_symbol_not_special (hum : Bool) (sl : List (List Symbol))
    (md : List String) (ix ixs : Nat) (st : St) (symbol : Symbol)
    (h1 : ¬ st.initial_clef = some symbol)
    (h2 : ¬ (symbol.type = st.initial_key ∧ ixs = 1))
    (h3 : ¬ (symbol.type = st.initial_key ∧ ixs = 2 ∧
      st.clef.map Symbol.pitch = some "c-c-g"))
    (h4 : ¬ symbol.type = "flat") (h5 : ¬ symbol.type = "sharp")
    (h6 : ¬ symbol.type = "mens") (h7 : ¬ symbol.type = "dot")
    (h8 : RESTS_MEI symbol.type = none) :
    step_symbol hum sl md ix ixs st symbol =
      match NOTES_MEI symbol.type with
      | some dur => step_note hum st symbol symbol.type dur
      | none =>
        if symbol.type = "bar" then step_bar hum md sl.length ix st
        else if symbol.type = "custos" then step_custos hum sl ix st
        else append_humdrum_line hum st := by
  unfold step_symbol
  rw [if_neg h1, if_neg h2, if_neg h3, if_neg h4, if_neg h5, if_neg h6,
    if_neg h7, h8]

/-- Helper: a successful `save_mei_file_state` call appends exactly one
output (the current document and, with Humdrum on, the current whole
buffer) and touches nothing but the naming state. -/
theorem save_mei_file_state_ok (hum : Bool) (md : List String)
    (len ix : Nat) (st : St) (hmd : ix < md.length)
    (hnext : ix ≠ len - 1 → ix + 1 < md.length) :
    ∃ name st1, save_mei_file_state hum md len ix st = .ok st1 ∧
      st1.outputs = st.outputs ++
        [⟨name, st.doc, if hum then st.humdrum else []⟩] ∧
      st1.doc = st.doc ∧ st1.humdrum = st.humdrum ∧
      st1.humdrum_line = st.humdrum_line ∧
      st1.sharp_found = st.sharp_found ∧ st1.flat_found = st.flat_found ∧
      st1.ligature = st.ligature ∧ st1.lig_ref = st.lig_ref ∧
      st1.mens_bound = st.mens_bound ∧ st1.mens_ref = st.mens_ref ∧
      st1.initial_clef = st.initial_clef ∧
      st1.initial_key = st.initial_key ∧ st1.clef = st.clef ∧
      st1.first_staff = st.first_staff ∧ st1.saved = st.saved ∧
      st1.id_counter = st.id_counter := by
  unfold save_mei_file_state
  have hcur : ∃ lab, md.get? ix = some lab := by
    cases hq : md.get? ix with
    | some lab => exact ⟨lab, rfl⟩
    | none =>
      rw [List.get?_eq_getElem?] at hq
      rw [List.getElem?_eq_none_iff] at hq
      omega
  obtain ⟨lab, hlab⟩ := hcur
  by_cases hmem : st.filename ∈ st.used_filenames
  · rw [if_pos hmem]
    by_cases hix : ix ≠ len - 1
    · obtain ⟨lab2, hlab2⟩ : ∃ lab2, md.get? (ix + 1) = some lab2 := by
        cases hq : md.get? (ix + 1) with
        | some lab2 => exact ⟨lab2, rfl⟩
        | none =>
          rw [List.get?_eq_getElem?] at hq
          rw [List.getElem?_eq_none_iff] at hq
          have := hnext hix
          omega
      rw [if_pos hix, hlab2]
      exact ⟨_, _, rfl, rfl, rfl, rfl, rfl, rfl, rfl, rfl, rfl, rfl, rfl,
        rfl, rfl, rfl, rfl, rfl, rfl⟩
    · rw [if_neg hix]
      exact ⟨_, _, rfl, rfl, rfl, rfl, rfl, rfl, rfl, rfl, rfl, rfl, rfl,
        rfl, rfl, rfl, rfl, rfl, rfl⟩
  · rw [if_neg hmem, hlab]
    by_cases hix : ix ≠ len - 1
    · obtain ⟨lab2, hlab2⟩ : ∃ lab2, md.get? (ix + 1) = some lab2 := by
        cases hq : md.get? (ix + 1) with
        | some lab2 => exact ⟨lab2, rfl⟩
        | none =>
          rw [List.get?_eq_getElem?] at hq
          rw [List.getElem?_eq_none_iff] at hq
          have := hnext hix
          omega
      rw [if_pos hix, hlab2]
      exact ⟨_, _, rfl, rfl, rfl, rfl, rfl, rfl, rfl, rfl, rfl, rfl, rfl,
        rfl, rfl, rfl, rfl, rfl, rfl⟩
    · rw [if_neg hix]
      exact ⟨_, _, rfl, rfl, rfl, rfl, rfl, rfl, rfl, rfl, rfl, rfl, rfl,
        rfl, rfl, rfl, rfl, rfl, rfl⟩

/-- Helper: fields of the pre-save state of the `bar` branch. -/
theorem bar_pre_fields (hum : Bool) (st : St) :
    (bar_pre hum st).outputs = st.outputs ∧
    (bar_pre hum st).doc =
      { st.doc with
        layer := st.doc.layer ++ [Elem.barLineE (some "dbl") none] } ∧
    (bar_pre hum st).humdrum =
      (if hum then st.humdrum ++ ["=||", "*-"] else st.humdrum) ∧
    (bar_pre hum st).clef = st.clef ∧
    (bar_pre hum st).initial_key = st.initial_key ∧
    (bar_pre hum st).initial_clef = st.initial_clef ∧
    (bar_pre hum st).sharp_found = st.sharp_found ∧
    (bar_pre hum st).flat_found = st.flat_found ∧
    (bar_pre hum st).ligature = st.ligature ∧
    (bar_pre hum st).mens_bound = st.mens_bound ∧
    (bar_pre hum st).humdrum_line = st.humdrum_line := by
  cases hum <;>
    exact ⟨rfl, rfl, rfl, rfl, rfl, rfl, rfl, rfl, rfl, rfl, rfl⟩

/-- Helper: the full effect of the `bar` branch: exactly one document is
finalized (carrying the double barline and, with Humdrum on, the cumulative
buffer ending in the terminator pair); a fresh empty document is opened;
the clef/key variables and the accidental/ligature flags are untouched; the
mensuration and ligature references go stale. -/
theorem step_bar_ok (hum : Bool) (md : List String) (len ix : Nat) (st : St)
    (hmd : ix < md.length) (hnext : ix ≠ len - 1 → ix + 1 < md.length) :
    ∃ name st1, step_bar hum md len ix st = .ok st1 ∧
      st1.outputs = st.outputs ++
        [⟨name,
          { st.doc with
            layer := st.doc.layer ++ [Elem.barLineE (some "dbl") none] },
          if hum then st.humdrum ++ ["=||", "*-"] else []⟩] ∧
      st1.humdrum = (if hum then st.humdrum ++ ["=||", "*-"] else st.humdrum) ∧
      st1.doc = Doc.empty ∧ st1.mens_ref = none ∧ st1.lig_ref = none ∧
      st1.clef = st.clef ∧ st1.initial_key = st.initial_key ∧
      st1.initial_clef = st.initial_clef ∧
      st1.sharp_found = st.sharp_found ∧ st1.flat_found = st.flat_found ∧
      st1.ligature = st.ligature ∧ st1.mens_bound = st.mens_bound ∧
      st1.humdrum_line = st.humdrum_line ∧
      st1.first_staff = true ∧ st1.saved = true := by
  obtain ⟨name, st1, hrun, hout, hdoc, hhum, hline, hsh, hfl, hlig, hlr,
    hmb, hmr, hicl, hikey, hclef, hfs, hsv, hid⟩ :=
    save_mei_file_state_ok hum md len ix (bar_pre hum st) hmd hnext
  obtain ⟨bpo, bpd, bph, bpc, bpk, bpic, bpsh, bpfl, bplg, bpmb, bphl⟩ :=
    bar_pre_fields hum st
  refine ⟨name, { new_document st1 with first_staff := true, saved := true },
    ?_, ?_, ?_, rfl, rfl, rfl, ?_, ?_, ?_, ?_, ?_, ?_, ?_, ?_, rfl, rfl⟩
  · unfold step_bar
    rw [hrun]
  · show st1.outputs = _
    rw [hout, bpo, bpd, bph]
    cases hum <;> simp
  · show st1.humdrum = _
    rw [hhum, bph]
  · show st1.clef = _
    rw [hclef, bpc]
  · show st1.initial_key = _
    rw [hikey, bpk]
  · show st1.initial_clef = _
    rw [hicl, bpic]
  · show st1.sharp_found = _
    rw [hsh, bpsh]
  · show st1.flat_found = _
    rw [hfl, bpfl]
  · show st1.ligature = _
    rw [hlig, bplg]
  · show st1.mens_bound = _
    rw [hmb, bpmb]
  · show st1.humdrum_line = _
    rw [hline, bphl]

/-- Helper: the per-staff prelude always ends by clearing the sharp, flat
and ligature flags (source lines 260-262). -/
theorem staff_init_resets (hum : Bool) (sl : List (List Symbol))
    (md : List String) (ix : Nat) (staff : List Symbol) (st st2 : St)
    (h : staff_init hum sl md ix staff st = .ok st2) :
    st2.sharp_found = false ∧ st2.flat_found = false ∧
    st2.ligature = false := by
  unfold staff_init at h
  cases hc : staff_init_core hum sl md ix staff st with
  | error e =>
    rw [hc] at h
    exact Except.noConfusion h
  | ok stc =>
    rw [hc] at h
    injection h with h2
    rw [← h2]
    exact ⟨rfl, rfl, rfl⟩

/-- C3, amended: a Barline always finalizes exactly one document and opens
a fresh document with no mensuration element (and stale
mensuration/ligature references); the governing clef and the resolved key
variables are unchanged; but the pending sharp/flat accidental flags are
*not* reset by the Barline itself — they are cleared only at each staff
start, so they are clear in the next document exactly when the Barline was
staff-final, and a mid-staff Barline leaks them into the new document. -/
theorem C3_theorem :
    (∀ (hum : Bool) (stafflist : List (List Symbol)) (metadata : List String)
        (ix_staff ix_symbol : Nat) (st : St) (ic : Symbol) (p : String),
        st.initial_clef = some ic → ic.type = "clef" →
        (st.initial_key = "" ∨ st.initial_key = "flat") →
        ix_staff < metadata.length →
        (ix_staff ≠ stafflist.length - 1 → ix_staff + 1 < metadata.length) →
        ∃ st1, step_symbol hum stafflist metadata ix_staff ix_symbol st
            ⟨"bar", p⟩ = .ok st1 ∧
          st1.outputs.length = st.outputs.length + 1 ∧
          st1.doc = Doc.empty ∧ st1.mens_ref = none ∧ st1.lig_ref = none ∧
          st1.clef = st.clef ∧ st1.initial_key = st.initial_key ∧
          st1.initial_clef = st.initial_clef ∧
          st1.sharp_found = st.sharp_found ∧
          st1.flat_found = st.flat_found ∧ st1.first_staff = true) ∧
    (∀ (hum : Bool) (stafflist : List (List Symbol)) (metadata : List String)
        (ix_staff : Nat) (staff : List Symbol) (st st2 : St),
        staff_init hum stafflist metadata ix_staff staff st = .ok st2 →
        st2.sharp_found = false ∧ st2.flat_found = false ∧
        st2.ligature = false) := by
  constructor
  · intro hum sl md ix ixs st ic p hic hty hkey hmd hnext
    have hdisp := step_symbol_not_special hum sl md ix ixs st ⟨"bar", p⟩
      (initial_clef_ne st ic hic hty _ (by intro hh; simp at hh))
      (by
        intro hcon
        rcases hkey with hk | hk <;> rw [hk] at hcon <;> simp at hcon)
      (by
        intro hcon
        rcases hkey with hk | hk <;> rw [hk] at hcon <;> simp at hcon)
      (by intro hh; simp at hh)
      (by intro hh; simp at hh)
      (by intro hh; simp at hh)
      (by intro hh; simp at hh)
      rfl
    obtain ⟨name, st1, hbar, hout, hhum, hdoc, hmr, hlr, hclef, hikey, hicl,
      hsh, hfl, hlig, hmb, hhl, hfs, hsv⟩ :=
      step_bar_ok hum md sl.length ix st hmd hnext
    refine ⟨st1, ?_, ?_, hdoc, hmr, hlr, hclef, hikey, hicl, hsh, hfl, hfs⟩
    · rw [hdisp]
      show step_bar hum md sl.length ix st = Except.ok st1
      exact hbar
    · rw [hout]
      simp
  · intro hum sl md ix staff st st2 h
    exact staff_init_resets hum sl md ix staff st st2 h

/-- Witness for C3 at a state with a pending flat: a bar token at symbol
index 0 of a single-staff piece finalizes one document, re-arms
`first_staff`, and leaves the pending flat set (it will leak unless a staff
start intervenes). -/
theorem C3_witness :
    ∃ st1, step_symbol true [[⟨"bar", ""⟩]] ["p"] 0 0 stWflat ⟨"bar", ""⟩ =
        Except.ok st1 ∧
      st1.outputs.length = 1 ∧ st1.flat_found = true ∧
      st1.sharp_found = false ∧ st1.first_staff = true := by
  obtain ⟨st1, hstep, hlen, hdoc, hmr, hlr, hclef, hikey, hicl, hsh, hfl,
    hfs⟩ :=
    C3_theorem.1 true [[⟨"bar", ""⟩]] ["p"] 0 0 stWflat ⟨"clef", "c-c-g"⟩ ""
      rfl rfl (Or.inr rfl) (by decide) (fun h => absurd rfl h)
  refine ⟨st1, hstep, ?_, ?_, ?_, hfs⟩
  · rw [hlen]
    decide
  · rw [hfl]
    decide
  · rw [hsh]
    decide

/-- Helper: the key of a successful association-list lookup is among the
stored keys. -/
theorem lookup_key_mem {α β : Type} [BEq α] [LawfulBEq α]
    (l : List (α × β)) :
    ∀ (a : α) (b : β), List.lookup a l = some b → a ∈ l.map Prod.fst := by
  induction l with
  | nil => intro a b h; simp [List.lookup] at h
  | cons p rest ih =>
    intro a b h
    cases p with
    | mk k v =>
      cases hab : (a == k) with
      | true =>
        have : a = k := eq_of_beq hab
        subst this
        simp
      | false =>
        simp only [List.lookup, hab] at h
        exact List.mem_cons_of_mem _ (ih a b h)

/-- Helper: a note-kind key is none of the other branch keys. -/
theorem notes_key_facts {K : String} {dur : String}
    (h : NOTES_MEI K = some dur) :
    ¬ K = "clef" ∧ ¬ K = "flat" ∧ ¬ K = "sharp" ∧ ¬ K = "mens" ∧
    ¬ K = "dot" ∧ ¬ K = "" ∧ RESTS_MEI K = none := by
  have hmem := lookup_key_mem NOTES_MEI_TABLE K dur h
  have hall : ∀ x ∈ NOTES_MEI_TABLE.map Prod.fst,
      ¬ x = "clef" ∧ ¬ x = "flat" ∧ ¬ x = "sharp" ∧ ¬ x = "mens" ∧
      ¬ x = "dot" ∧ ¬ x = "" ∧ RESTS_MEI x = none := by decide
  exact hall K hmem

/-- Helper: `List.modify` at the index of the last element of an appended
singleton applies the function to that element. -/
theorem list_modify_last {α : Type} (f : α → α) :
    ∀ (l : List α) (x : α),
      List.modify f l.length (l ++ [x]) = l ++ [f x] := by
  intro l x
  induction l with
  | nil => rfl
  | cons a t ih =>
    show List.modify f (t.length + 1) (a :: (t ++ [x])) = a :: (t ++ [f x])
    rw [List.modify_succ_cons]
    rw [ih]

/-- Helper: the line append leaves the document unchanged. -/
theorem append_line_post_doc (l : String) (st : St) :
    (append_line_post l st).doc = st.doc := by
  unfold append_line_post
  by_cases hc : containsSubstr l "custos" = true
  · rw [if_pos hc]
  · rw [if_neg hc]

/-- Helper: the line append leaves the outputs unchanged. -/
theorem append_line_post_outputs (l : String) (st : St) :
    (append_line_post l st).outputs = st.outputs := by
  unfold append_line_post
  by_cases hc : containsSubstr l "custos" = true
  · rw [if_pos hc]
  · rw [if_neg hc]

/-- Helper: the line append leaves the ligature flag unchanged. -/
theorem append_line_post_ligature (l : String) (st : St) :
    (append_line_post l st).ligature = st.ligature := by
  unfold append_line_post
  by_cases hc : containsSubstr l "custos" = true
  · rw [if_pos hc]
  · rw [if_neg hc]

/-- Helper: the line append changes nothing but the Humdrum buffer, which
it only extends. -/
theorem append_line_post_fields (l : String) (st : St) :
    (append_line_post l st).doc = st.doc ∧
    (append_line_post l st).outputs = st.outputs ∧
    (append_line_post l st).ligature = st.ligature ∧
    (append_line_post l st).sharp_found = st.sharp_found ∧
    (append_line_post l st).flat_found = st.flat_found ∧
    (append_line_post l st).clef = st.clef ∧
    (append_line_post l st).initial_clef = st.initial_clef ∧
    (append_line_post l st).initial_key = st.initial_key ∧
    (append_line_post l st).lig_ref = st.lig_ref ∧
    (append_line_post l st).mens_ref = st.mens_ref ∧
    (append_line_post l st).mens_bound = st.mens_bound ∧
    (append_line_post l st).first_staff = st.first_staff ∧
    (append_line_post l st).saved = st.saved ∧
    (append_line_post l st).filename = st.filename ∧
    (append_line_post l st).filename_counter = st.filename_counter ∧
    (append_line_post l st).used_filenames = st.used_filenames ∧
    (∃ suf, (append_line_post l st).humdrum = st.humdrum ++ suf) := by
  unfold append_line_post
  by_cases hc : containsSubstr l "custos" = true
  · rw [if_pos hc]
    refine ⟨rfl, rfl, rfl, rfl, rfl, rfl, rfl, rfl, rfl, rfl, rfl, rfl,
      rfl, rfl, rfl, rfl, ⟨[l] ++ ["!!LO:LB:g=z", "=-"], ?_⟩⟩
    rw [← List.append_assoc]
  · rw [if_neg hc]
    exact ⟨rfl, rfl, rfl, rfl, rfl, rfl, rfl, rfl, rfl, rfl, rfl, rfl,
      rfl, rfl, rfl, rfl, ⟨[l], rfl⟩⟩

/-- Helper: the trailing Humdrum-line append never fails when the line
variable is bound (or Humdrum is off), and only extends the buffer. -/
theorem append_humdrum_line_ok (hum : Bool) (st : St)
    (h : hum = true → st.humdrum_line.isSome = true) :
    ∃ st2, append_humdrum_line hum st = .ok st2 ∧
      st2.doc = st.doc ∧ st2.outputs = st.outputs ∧
      st2.ligature = st.ligature ∧ st2.sharp_found = st.sharp_found ∧
      st2.flat_found = st.flat_found ∧ st2.clef = st.clef ∧
      st2.initial_clef = st.initial_clef ∧
      st2.initial_key = st.initial_key ∧ st2.lig_ref = st.lig_ref ∧
      st2.mens_ref = st.mens_ref ∧ st2.mens_bound = st.mens_bound ∧
      st2.first_staff = st.first_staff ∧ st2.saved = st.saved ∧
      st2.filename = st.filename ∧
      st2.filename_counter = st.filename_counter ∧
      st2.used_filenames = st.used_filenames ∧
      (∃ suf, st2.humdrum = st.humdrum ++ suf) := by
  unfold append_humdrum_line
  cases hum with
  | false =>
    exact ⟨st, rfl, rfl, rfl, rfl, rfl, rfl, rfl, rfl, rfl, rfl, rfl, rfl,
      rfl, rfl, rfl, rfl, rfl, ⟨[], by simp⟩⟩
  | true =>
    cases hl : st.humdrum_line with
    | none =>
      have h2 := h rfl
      rw [hl] at h2
      simp at h2
    | some l =>
      rw [if_pos rfl]
      obtain ⟨f1, f2, f3, f4, f5, f6, f7, f8, f9, f10, f11, f12, f13, f14,
        f15, f16, f17⟩ := append_line_post_fields l st
      exact ⟨append_line_post l st, rfl, f1, f2, f3, f4, f5, f6, f7, f8,
        f9, f10, f11, f12, f13, f14, f15, f16, f17⟩

/-- Helper: the effect of the `t == 'li'` path of the note branch: a fresh
one-note ligature container is appended and the ligature is opened. -/
theorem step_note_li (hum : Bool) (st : St) (P : String) (cl : Symbol)
    (o1 : Int) (p1 : String) (hclef : st.clef = some cl)
    (ha : analyse_note cl.pitch P = some (o1, p1)) :
    ∃ st1, step_note hum st ⟨"li", P⟩ "li" "semibrevis" = .ok st1 ∧
      st1.doc = { st.doc with
        layer := st.doc.layer ++
          [Elem.ligatureE "recta" [⟨"semibrevis", o1, p1, none, false⟩]] } ∧
      st1.ligature = true ∧ st1.lig_ref = some st.doc.layer.length ∧
      st1.clef = st.clef ∧ st1.initial_clef = st.initial_clef ∧
      st1.initial_key = st.initial_key ∧
      st1.sharp_found = st.sharp_found ∧ st1.flat_found = st.flat_found ∧
      st1.outputs = st.outputs := by
  simp only [step_note, hclef, ha]
  cases hum with
  | false =>
    exact ⟨_, rfl, rfl, rfl, rfl, rfl, rfl, rfl, rfl, rfl, rfl⟩
  | true =>
    exact ⟨_, rfl, rfl, rfl, rfl, rfl, rfl, rfl, rfl, rfl, rfl⟩

/-- Helper: the effect of the ligature-closing path of the note branch:
the note, forced to `semibrevis` and carrying any pending accidental
(flat winning over sharp), is moved into the element the `xml_lig` local
references, and the ligature closes. -/
theorem step_note_close (hum : Bool) (st : St) (K Q dur : String)
    (cl : Symbol) (o2 : Int) (p2 : String)
    (hclef : st.clef = some cl)
    (ha : analyse_note cl.pitch Q = some (o2, p2))
    (hK : ¬ K = "li") (hlig : st.ligature = true) :
    ∃ st2, step_note hum st ⟨K, Q⟩ K dur = .ok st2 ∧
      st2.doc.layer =
        (match st.lig_ref with
          | some i => append_lig_note st.doc.layer i
              ⟨"semibrevis", o2, p2,
                (if st.flat_found then some "f"
                 else if st.sharp_found then some "s" else none),
                (K == "br" || K == "sb")⟩
          | none => st.doc.layer) ∧
      st2.ligature = false ∧ st2.outputs = st.outputs := by
  simp only [step_note, hclef, ha]
  rw [if_neg hK, hlig]
  cases hr : st.lig_ref with
  | some i =>
    cases hum with
    | true =>
      refine ⟨_, rfl, ?_, ?_, ?_⟩ <;>
        (simp only [append_line_post_doc, append_line_post_ligature,
          append_line_post_outputs]
         rfl)
    | false =>
      exact ⟨_, rfl, rfl, rfl, rfl⟩
  | none =>
    cases hum with
    | true =>
      refine ⟨_, rfl, ?_, ?_, ?_⟩ <;>
        (simp only [append_line_post_doc, append_line_post_ligature,
          append_line_post_outputs]
         rfl)
    | false =>
      exact ⟨_, rfl, rfl, rfl, rfl⟩

/-- Helper: appending the closing note into the ligature container that
sits last in the layer. -/
theorem append_lig_note_last (L : List Elem) (f : String) (ns : List NoteE)
    (n : NoteE) :
    append_lig_note (L ++ [Elem.ligatureE f ns]) L.length n =
      L ++ [Elem.ligatureE f (ns ++ [n])] := by
  unfold append_lig_note
  rw [list_modify_last]

/-- C7, amended: for an adjacent pair `[Note(li, P), Note(K, Q)]` where `K`
is any note kind *other than* `"li"` (for `K = "li"` see the
counterexample: a second container is opened instead), processing the two
tokens in sequence appends exactly one ligature container to the layer,
holding exactly two notes, the second forced to `"semibrevis"` duration
regardless of `K`; a pending accidental attaches to the second note (flat
winning over sharp); no document is finalized and the ligature closes.
The hypotheses cover every reachable key state: `initial_key` is `""`
(the default set at clef resolution) or `"flat"` (one-flat key). -/
theorem C7_theorem (hum : Bool) (sl : List (List Symbol)) (md : List String)
    (ix ixs : Nat) (st : St) (P Q K dur : String) (cl ic : Symbol)
    (o1 o2 : Int) (p1 p2 : String)
    (hic : st.initial_clef = some ic) (hty : ic.type = "clef")
    (hkey : st.initial_key = "" ∨ st.initial_key = "flat")
    (hclef : st.clef = some cl)
    (ha1 : analyse_note cl.pitch P = some (o1, p1))
    (ha2 : analyse_note cl.pitch Q = some (o2, p2))
    (hKd : NOTES_MEI K = some dur) (hK : ¬ K = "li") :
    ∃ st1 st2,
      step_symbol hum sl md ix ixs st ⟨"li", P⟩ = .ok st1 ∧
      step_symbol hum sl md ix (ixs + 1) st1 ⟨K, Q⟩ = .ok st2 ∧
      st2.doc.layer = st.doc.layer ++
        [Elem.ligatureE "recta"
          [⟨"semibrevis", o1, p1, none, false⟩,
           ⟨"semibrevis", o2, p2,
             (if st.flat_found then some "f"
              else if st.sharp_found then some "s" else none),
             (K == "br" || K == "sb")⟩]] ∧
      st2.ligature = false ∧ st2.outputs = st.outputs := by
  obtain ⟨hKc, hKf, hKs, hKm, hKdot, hKe, hKr⟩ := notes_key_facts hKd
  obtain ⟨st1, h1, hdoc1, hlig1, href1, hclef1, hicl1, hikey1, hsh1, hfl1,
    hout1⟩ := step_note_li hum st P cl o1 p1 hclef ha1
  obtain ⟨st2, h2, hlay2, hlig2, hout2⟩ :=
    step_note_close hum st1 K Q dur cl o2 p2 (by rw [hclef1, hclef]) ha2 hK
      hlig1
  refine ⟨st1, st2, ?_, ?_, ?_, hlig2, ?_⟩
  · have hd := step_symbol_not_special hum sl md ix ixs st ⟨"li", P⟩
      (initial_clef_ne st ic hic hty ⟨"li", P⟩ (by simp))
      (by rintro ⟨h, -⟩
          rcases hkey with hk | hk <;> rw [hk] at h <;> simp at h)
      (by rintro ⟨h, -⟩
          rcases hkey with hk | hk <;> rw [hk] at h <;> simp at h)
      (by simp) (by simp) (by simp) (by simp) (by simp [RESTS_MEI])
    rw [hd]
    exact h1
  · have hd := step_symbol_not_special hum sl md ix (ixs + 1) st1 ⟨K, Q⟩
      (by rw [hicl1]
          exact initial_clef_ne st ic hic hty ⟨K, Q⟩ hKc)
      (by rw [hikey1]
          rintro ⟨h, -⟩
          rcases hkey with hk | hk <;> rw [hk] at h
          · exact hKe h
          · exact hKf h)
      (by rw [hikey1]
          rintro ⟨h, -⟩
          rcases hkey with hk | hk <;> rw [hk] at h
          · exact hKe h
          · exact hKf h)
      hKf hKs hKm hKdot hKr
    rw [hd]
    have e : NOTES_MEI (⟨K, Q⟩ : Symbol).type = some dur := hKd
    rw [e]
    exact h2
  · rw [hlay2, href1]
    have hl1 : st1.doc.layer = st.doc.layer ++
        [Elem.ligatureE "recta" [⟨"semibrevis", o1, p1, none, false⟩]] := by
      rw [hdoc1]
    rw [hl1, hfl1, hsh1]
    exact append_lig_note_last st.doc.layer "recta"
      [⟨"semibrevis", o1, p1, none, false⟩]
      ⟨"semibrevis", o2, p2,
        (if st.flat_found then some "f"
         else if st.sharp_found then some "s" else none),
        (K == "br" || K == "sb")⟩
  · rw [hout2, hout1]

/-- Witness for C7 at the resolved state `stW`: the pair
`[Note(li, g1), Note(sb, g1)]` appends one two-note ligature container
whose second note has duration `semibrevis`. -/
theorem C7_witness :
    ∃ st1 st2,
      step_symbol true [] [] 0 3 stW ⟨"li", "g1"⟩ = .ok st1 ∧
      step_symbol true [] [] 0 (3 + 1) st1 ⟨"sb", "g1"⟩ = .ok st2 ∧
      st2.doc.layer = stW.doc.layer ++
        [Elem.ligatureE "recta"
          [⟨"semibrevis", 4, "c", none, false⟩,
           ⟨"semibrevis", 4, "c",
             (if stW.flat_found then some "f"
              else if stW.sharp_found then some "s" else none),
             (("sb" : String) == "br" || ("sb" : String) == "sb")⟩]] ∧
      st2.ligature = false ∧ st2.outputs = stW.outputs :=
  C7_theorem true [] [] 0 3 stW "g1" "g1" "sb" "semibrevis"
    ⟨"clef", "c-c-g"⟩ ⟨"clef", "c-c-g"⟩ 4 4 "c" "c"
    (by decide) (by decide) (by decide) (by decide) (by decide) (by decide)
    (by decide) (by decide)



/-- Helper: the head of an append is the head of a nonempty left part. -/
theorem head_append_left {α : Type} (l l2 : List α) (h : l ≠ []) :
    (l ++ l2).head? = l.head? := List.head?_append_of_ne_nil l h

/-- Helper: dropping the last element of a list with at least two elements
keeps the head. -/
theorem head_dropLast {α : Type} (l : List α) (h : 2 ≤ l.length) :
    l.dropLast.head? = l.head? := by
  cases l with
  | nil => simp at h
  | cons a t =>
    cases t with
    | nil => simp at h
    | cons b u => rfl

/-- Helper: one buffer transition preserves the buffer invariant. -/
theorem BufInv_step (st st2 : St) (hi : BufInv st) (hs : BufStep st st2) :
    BufInv st2 := by
  obtain ⟨hh, hlen, hout, hch⟩ := hi
  have hne : st.humdrum ≠ [] :=
    List.ne_nil_of_length_pos (by omega)
  rcases hs with ⟨suf, hhum, houts⟩ | ⟨x, hhum, houts⟩ |
    ⟨name, d, hhum, houts⟩
  · refine ⟨?_, ?_, ?_, ?_⟩
    · rw [hhum, head_append_left _ _ hne]
      exact hh
    · rw [hhum, List.length_append]
      omega
    · intro o ho
      rw [houts] at ho
      obtain ⟨o1, o2, o3, o4⟩ := hout o ho
      refine ⟨o1, o2, ?_, ?_⟩
      · rw [hhum, List.length_append]
        omega
      · obtain ⟨s2, hs2⟩ := o4
        exact ⟨s2 ++ suf, by rw [hhum, hs2, List.append_assoc]⟩
    · rw [houts]
      exact hch
  · have hld : st.humdrum.dropLast ≠ [] :=
      List.ne_nil_of_length_pos (by rw [List.length_dropLast]; omega)
    refine ⟨?_, ?_, ?_, ?_⟩
    · rw [hhum, head_append_left _ _ hld, head_dropLast _ hlen]
      exact hh
    · rw [hhum, List.length_append, List.length_dropLast]
      simp only [List.length_singleton]
      omega
    · intro o ho
      rw [houts] at ho
      obtain ⟨o1, o2, o3, o4⟩ := hout o ho
      have hone : o.humdrum ≠ [] := by
        intro h0
        rw [h0] at o1
        simp at o1
      refine ⟨o1, o2, ?_, ?_⟩
      · rw [hhum, List.length_append, List.length_dropLast]
        simp only [List.length_singleton]
        omega
      · obtain ⟨s2, hs2⟩ := o4
        have hs2ne : s2 ≠ [] := by
          intro h0
          rw [h0, List.append_nil] at hs2
          have h1 : st.humdrum.length = o.humdrum.dropLast.length := by
            rw [hs2]
          rw [List.length_dropLast] at h1
          have h2 : 0 < o.humdrum.length := List.length_pos.mpr hone
          omega
        refine ⟨s2.dropLast ++ [x], ?_⟩
        rw [hhum, hs2, List.dropLast_append_of_ne_nil _ hs2ne,
          List.append_assoc]
    · rw [houts]
      exact hch
  · refine ⟨?_, ?_, ?_, ?_⟩
    · rw [hhum, head_append_left _ _ hne]
      exact hh
    · rw [hhum, List.length_append]
      omega
    · intro o ho
      rw [houts] at ho
      rcases List.mem_append.mp ho with hold | hnew
      · obtain ⟨o1, o2, o3, o4⟩ := hout o hold
        refine ⟨o1, o2, ?_, ?_⟩
        · rw [hhum, List.length_append]
          omega
        · obtain ⟨s2, hs2⟩ := o4
          exact ⟨s2 ++ ["=||", "*-"], by rw [hhum, hs2, List.append_assoc]⟩
      · have ho2 : o = ⟨name, d, st.humdrum ++ ["=||", "*-"]⟩ :=
          List.mem_singleton.mp hnew
        subst ho2
        have hne2 : st.humdrum ++ ["=||", "*-"] ≠ [] := by
          simp
        refine ⟨?_, ⟨st.humdrum, rfl⟩, ?_, ?_⟩
        · show (st.humdrum ++ ["=||", "*-"]).head? = some "**mens"
          rw [head_append_left _ _ hne]
          exact hh
        · rw [hhum]
        · refine ⟨[(st.humdrum ++ ["=||", "*-"]).getLast hne2], ?_⟩
          rw [hhum]
          exact (List.dropLast_append_getLast hne2).symm
    · rw [houts]
      refine List.Chain'.append hch (List.chain'_singleton _) ?_
      intro a ha b hb
      have hb2 : b = ⟨name, d, st.humdrum ++ ["=||", "*-"]⟩ := by
        simp at hb
        exact hb.symm
      obtain ⟨hx, hlast⟩ := List.mem_getLast?_eq_getLast ha
      have ha2 : a ∈ st.outputs := by
        rw [hlast]
        exact List.getLast_mem hx
      obtain ⟨o1, o2, o3, ⟨s2, hs2⟩⟩ := hout a ha2
      refine ⟨s2 ++ ["=||", "*-"], ?_⟩
      rw [hb2]
      show st.humdrum ++ ["=||", "*-"] = _
      rw [hs2, List.append_assoc]


/-- Helper: the line append only extends the buffer. -/
theorem append_line_post_humdrum (l : String) (st : St) :
    ∃ suf, (append_line_post l st).humdrum = st.humdrum ++ suf := by
  unfold append_line_post
  by_cases hc : containsSubstr l "custos" = true
  · rw [if_pos hc]
    refine ⟨[l] ++ ["!!LO:LB:g=z", "=-"], ?_⟩
    rw [← List.append_assoc]
  · rw [if_neg hc]
    exact ⟨[l], rfl⟩

/-- Helper: a successful trailing line append leaves the outputs alone and
extends the buffer. -/
theorem append_humdrum_line_shape (hum : Bool) (st st2 : St)
    (h : append_humdrum_line hum st = .ok st2) :
    st2.outputs = st.outputs ∧
      ∃ suf, st2.humdrum = st.humdrum ++ suf := by
  unfold append_humdrum_line at h
  cases hum with
  | false =>
    injection h with h2
    rw [← h2]
    exact ⟨rfl, ⟨[], by simp⟩⟩
  | true =>
    rw [if_pos rfl] at h
    cases hl : st.humdrum_line with
    | none =>
      rw [hl] at h
      exact Except.noConfusion h
    | some l =>
      rw [hl] at h
      injection h with h2
      rw [← h2]
      exact ⟨append_line_post_outputs l st, append_line_post_humdrum l st⟩

/-- Helper: a successful `mens` step is a buffer extension or a last-line
rewrite. -/
theorem step_mens_shape (hum : Bool) (st : St) (symbol : Symbol) (st2 : St)
    (h : step_mens hum st symbol = .ok st2) : BufStep st st2 := by
  unfold step_mens at h
  by_cases hp : symbol.pitch = "met_3_2"
  · rw [if_pos hp] at h
    cases hmb : st.mens_bound with
    | false =>
      rw [hmb] at h
      exact Except.noConfusion h
    | true =>
      rw [hmb, if_pos rfl] at h
      cases hmr : st.mens_ref with
      | some i =>
        cases hum with
        | false =>
          simp only [hmr, Bool.false_eq_true, if_false] at h
          injection h with h2
          rw [← h2]
          exact Or.inl ⟨[], by simp, rfl⟩
        | true =>
          simp only [hmr, if_true] at h
          cases hgl : st.humdrum.getLast? with
          | none =>
            rw [hgl] at h
            exact Except.noConfusion h
          | some l =>
            simp only [hgl, Except.ok.injEq] at h
            rw [← h]
            exact Or.inr (Or.inl ⟨met32_rewrite l, rfl, rfl⟩)
      | none =>
        cases hum with
        | false =>
          simp only [hmr, Bool.false_eq_true, if_false] at h
          injection h with h2
          rw [← h2]
          exact Or.inl ⟨[], by simp, rfl⟩
        | true =>
          simp only [hmr, if_true] at h
          cases hgl : st.humdrum.getLast? with
          | none =>
            rw [hgl] at h
            exact Except.noConfusion h
          | some l =>
            simp only [hgl, Except.ok.injEq] at h
            rw [← h]
            exact Or.inr (Or.inl ⟨met32_rewrite l, rfl, rfl⟩)
  · rw [if_neg hp] at h
    cases ham : analyse_mensuration symbol.pitch with
    | none =>
      rw [ham] at h
      exact Except.noConfusion h
    | some pr =>
      rw [ham] at h
      obtain ⟨ho, suf, hs⟩ := append_humdrum_line_shape hum _ st2 h
      refine Or.inl ⟨suf, ?_, ?_⟩
      · rw [hs]
        cases hum <;> rfl
      · rw [ho]
        cases hum <;> rfl

/-- Helper: a successful `dot` step is a last-line rewrite (or, with Humdrum
off, leaves the buffer alone). -/
theorem step_dot_shape (hum : Bool) (st st2 : St)
    (h : step_dot hum st = .ok st2) : BufStep st st2 := by
  unfold step_dot at h
  cases hum with
  | false =>
    simp only [Bool.false_eq_true, if_false] at h
    injection h with h2
    rw [← h2]
    exact Or.inl ⟨[], by simp, rfl⟩
  | true =>
    simp only [if_true] at h
    cases hgl : st.humdrum.getLast? with
    | none =>
      rw [hgl] at h
      exact Except.noConfusion h
    | some l =>
      simp only [hgl] at h
      cases hdr : dot_rewrite l with
      | none =>
        rw [hdr] at h
        exact Except.noConfusion h
      | some l1 =>
        simp only [hdr, Except.ok.injEq] at h
        rw [← h]
        exact Or.inr (Or.inl ⟨l1, rfl, rfl⟩)


/-- Helper: a successful save leaves the buffer alone and appends exactly
one output recording the current document and (with Humdrum on) the current
whole buffer. -/
theorem save_mei_file_state_shape (hum : Bool) (md : List String)
    (len ix : Nat) (st st2 : St)
    (h : save_mei_file_state hum md len ix st = .ok st2) :
    st2.humdrum = st.humdrum ∧
      ∃ name, st2.outputs = st.outputs ++
        [⟨name, st.doc, if hum then st.humdrum else []⟩] := by
  unfold save_mei_file_state at h
  by_cases hmem : st.filename ∈ st.used_filenames
  · rw [if_pos hmem] at h
    by_cases hix : ix ≠ len - 1
    · rw [if_pos hix] at h
      cases hq : md.get? (ix + 1) with
      | none =>
        rw [hq] at h
        exact Except.noConfusion h
      | some lab2 =>
        rw [hq] at h
        injection h with h2
        rw [← h2]
        exact ⟨rfl, _, rfl⟩
    · rw [if_neg hix] at h
      injection h with h2
      rw [← h2]
      exact ⟨rfl, _, rfl⟩
  · rw [if_neg hmem] at h
    cases hlab : md.get? ix with
    | none =>
      rw [hlab] at h
      exact Except.noConfusion h
    | some lab =>
      rw [hlab] at h
      by_cases hix : ix ≠ len - 1
      · rw [if_pos hix] at h
        cases hq : md.get? (ix + 1) with
        | none =>
          rw [hq] at h
          exact Except.noConfusion h
        | some lab2 =>
          rw [hq] at h
          injection h with h2
          rw [← h2]
          exact ⟨rfl, _, rfl⟩
      · rw [if_neg hix] at h
        injection h with h2
        rw [← h2]
        exact ⟨rfl, _, rfl⟩

/-- Helper: a successful `bar` step (Humdrum on) is the terminator-and-save
transition. -/
theorem step_bar_shape (md : List String) (len ix : Nat) (st st2 : St)
    (h : step_bar true md len ix st = .ok st2) : BufStep st st2 := by
  unfold step_bar at h
  cases hsv : save_mei_file_state true md len ix (bar_pre true st) with
  | error e =>
    rw [hsv] at h
    exact Except.noConfusion h
  | ok st1 =>
    rw [hsv] at h
    injection h with h2
    obtain ⟨hh, name, ho⟩ :=
      save_mei_file_state_shape true md len ix (bar_pre true st) st1 hsv
    refine Or.inr (Or.inr ⟨name, (bar_pre true st).doc, ?_, ?_⟩)
    · rw [← h2]
      show st1.humdrum = _
      rw [hh]
      rfl
    · rw [← h2]
      show st1.outputs = _
      rw [ho]
      rfl


/-- Helper: a successful note step (Humdrum on) leaves the outputs alone
and only extends the buffer. -/
theorem step_note_shape (st : St) (symbol : Symbol) (t dur : String)
    (st2 : St) (h : step_note true st symbol t dur = .ok st2) :
    st2.outputs = st.outputs ∧
      ∃ suf, st2.humdrum = st.humdrum ++ suf := by
  unfold step_note at h
  cases hc : st.clef with
  | none =>
    rw [hc] at h
    exact Except.noConfusion h
  | some cl =>
    cases ha : analyse_note cl.pitch symbol.pitch with
    | none =>
      simp only [hc, ha] at h
      exact Except.noConfusion h
    | some op =>
      obtain ⟨oct, pname⟩ := op
      simp only [hc, ha, if_true] at h
      by_cases hli : t = "li"
      · rw [if_pos hli] at h
        injection h with h2
        rw [← h2]
        exact ⟨rfl, ⟨[get_humdrum_pitch oct pname "[s"], rfl⟩⟩
      · rw [if_neg hli] at h
        cases hlig : st.ligature with
        | true =>
          cases hr : st.lig_ref with
          | some i =>
            simp only [hlig, hr, if_true] at h
            obtain ⟨ho, suf, hs⟩ := append_humdrum_line_shape true _ st2 h
            refine ⟨?_, suf, ?_⟩
            · rw [ho]
            · rw [hs]
          | none =>
            simp only [hlig, hr, if_true] at h
            obtain ⟨ho, suf, hs⟩ := append_humdrum_line_shape true _ st2 h
            refine ⟨?_, suf, ?_⟩
            · rw [ho]
            · rw [hs]
        | false =>
          simp only [hlig, Bool.false_eq_true, if_false] at h
          cases hnh : NOTES_HUMDRUM t with
          | none =>
            rw [hnh] at h
            exact Except.noConfusion h
          | some sigil =>
            simp only [hnh, if_true] at h
            obtain ⟨ho, suf, hs⟩ := append_humdrum_line_shape true _ st2 h
            refine ⟨?_, suf, ?_⟩
            · rw [ho]
            · rw [hs]

/-- Helper: a successful custos step (Humdrum on) leaves the outputs alone
and only extends the buffer. -/
theorem step_custos_shape (sl : List (List Symbol)) (ix : Nat) (st st2 : St)
    (h : step_custos true sl ix st = .ok st2) :
    st2.outputs = st.outputs ∧
      ∃ suf, st2.humdrum = st.humdrum ++ suf := by
  simp only [step_custos, if_true] at h
  split at h
  · exact Except.noConfusion h
  · rename_i p hp
    cases p with
    | none =>
      obtain ⟨ho, suf, hs⟩ := append_humdrum_line_shape true _ st2 h
      refine ⟨?_, suf, ?_⟩
      · rw [ho]
      · rw [hs]
    | some op =>
      obtain ⟨o, pn⟩ := op
      obtain ⟨ho, suf, hs⟩ := append_humdrum_line_shape true _ st2 h
      refine ⟨?_, suf, ?_⟩
      · rw [ho]
      · rw [hs]


/-- Helper: every successful token step (Humdrum on) is one of the three
buffer transitions. -/
theorem step_symbol_shape (sl : List (List Symbol)) (md : List String)
    (ix ixs : Nat) (st : St) (symbol : Symbol) (st2 : St)
    (h : step_symbol true sl md ix ixs st symbol = .ok st2) :
    BufStep st st2 := by
  simp only [step_symbol, if_true] at h
  split at h
  · injection h with h2
    rw [← h2]
    exact Or.inl ⟨[], by simp, rfl⟩
  · split at h
    · injection h with h2
      rw [← h2]
      exact Or.inl ⟨[], by simp, rfl⟩
    · split at h
      · injection h with h2
        rw [← h2]
        exact Or.inl ⟨[], by simp, rfl⟩
      · split at h
        · injection h with h2
          rw [← h2]
          exact Or.inl ⟨[], by simp, rfl⟩
        · split at h
          · injection h with h2
            rw [← h2]
            exact Or.inl ⟨[], by simp, rfl⟩
          · split at h
            · exact step_mens_shape true st symbol st2 h
            · split at h
              · exact step_dot_shape true st st2 h
              · split at h
                · rename_i dur hr
                  split at h
                  · exact Except.noConfusion h
                  · rename_i line hline
                    obtain ⟨ho, suf, hs⟩ :=
                      append_humdrum_line_shape true _ st2 h
                    refine Or.inl ⟨suf, ?_, ?_⟩
                    · rw [hs]
                    · rw [ho]
                · split at h
                  · rename_i dur hd
                    obtain ⟨ho, suf, hs⟩ :=
                      step_note_shape st symbol symbol.type dur st2 h
                    exact Or.inl ⟨suf, hs, ho⟩
                  · split at h
                    · exact step_bar_shape md sl.length ix st st2 h
                    · split at h
                      · obtain ⟨ho, suf, hs⟩ :=
                          step_custos_shape sl ix st st2 h
                        exact Or.inl ⟨suf, hs, ho⟩
                      · obtain ⟨ho, suf, hs⟩ :=
                          append_humdrum_line_shape true st st2 h
                        exact Or.inl ⟨suf, hs, ho⟩


/-- Helper: a successful per-staff prelude core (Humdrum on) leaves the
outputs alone and only extends the buffer; at staff 0 it extends it by at
least the clef line. -/
theorem staff_init_core_shape (sl : List (List Symbol)) (md : List String)
    (ix : Nat) (staff : List Symbol) (st st2 : St)
    (h : staff_init_core true sl md ix staff st = .ok st2) :
    st2.outputs = st.outputs ∧
      ∃ suf, st2.humdrum = st.humdrum ++ suf ∧ (ix = 0 → suf ≠ []) := by
  simp only [staff_init_core, if_true] at h
  split at h
  · exact Except.noConfusion h
  · rename_i st0 hst0
    by_cases hix : ix = 0
    · rw [if_pos hix] at hst0
      cases hm0 : md.get? 0 with
      | none =>
        rw [hm0] at hst0
        exact Except.noConfusion hst0
      | some f0 =>
        rw [hm0] at hst0
        injection hst0 with h0
        subst h0
        simp only [if_true] at h
        split at h
        · exact Except.noConfusion h
        · rename_i ic iff hpr
          split at h
          · exact Except.noConfusion h
          · rename_i shape line hshl
            cases hcl : CLEFS_HUMDRUM ic.pitch with
            | none =>
              rw [hcl] at h
              exact Except.noConfusion h
            | some sigil =>
              cases iff with
              | false =>
                simp only [hcl, Bool.false_eq_true, if_false,
                  Except.ok.injEq] at h
                rw [← h]
                exact ⟨rfl, ⟨[sigil], rfl, fun _ => by simp⟩⟩
              | true =>
                simp only [hcl, if_true, Except.ok.injEq] at h
                rw [← h]
                refine ⟨rfl, ⟨[sigil] ++ ["*k[b-]"], ?_, fun _ => by simp⟩⟩
                rw [← List.append_assoc]
                rfl
    · rw [if_neg hix] at hst0
      injection hst0 with h0
      subst h0
      cases hfs : st.first_staff with
      | false =>
        simp only [hfs, Bool.false_eq_true, if_false, Except.ok.injEq] at h
        rw [← h]
        exact ⟨rfl, ⟨[], by simp, fun hx => absurd hx hix⟩⟩
      | true =>
        simp only [hfs, if_true] at h
        split at h
        · exact Except.noConfusion h
        · rename_i ic iff hpr
          split at h
          · exact Except.noConfusion h
          · rename_i shape line hshl
            cases hcl : CLEFS_HUMDRUM ic.pitch with
            | none =>
              rw [hcl] at h
              exact Except.noConfusion h
            | some sigil =>
              cases iff with
              | false =>
                simp only [hcl, Bool.false_eq_true, if_false,
                  Except.ok.injEq] at h
                rw [← h]
                exact ⟨rfl, ⟨[sigil], rfl, fun _ => by simp⟩⟩
              | true =>
                simp only [hcl, if_true, Except.ok.injEq] at h
                rw [← h]
                refine ⟨rfl, ⟨[sigil] ++ ["*k[b-]"], ?_, fun _ => by simp⟩⟩
                rw [← List.append_assoc]

/-- Helper: the full per-staff prelude (Humdrum on) has the same shape. -/
theorem staff_init_shape (sl : List (List Symbol)) (md : List String)
    (ix : Nat) (staff : List Symbol) (st st2 : St)
    (h : staff_init true sl md ix staff st = .ok st2) :
    st2.outputs = st.outputs ∧
      ∃ suf, st2.humdrum = st.humdrum ++ suf ∧ (ix = 0 → suf ≠ []) := by
  unfold staff_init at h
  cases hc : staff_init_core true sl md ix staff st with
  | error e =>
    rw [hc] at h
    exact Except.noConfusion h
  | ok stc =>
    rw [hc] at h
    injection h with h2
    rw [← h2]
    obtain ⟨ho, suf, hs, hne⟩ := staff_init_core_shape sl md ix staff st stc hc
    exact ⟨ho, ⟨suf, hs, hne⟩⟩


/-- Helper: the token loop preserves the buffer invariant. -/
theorem run_symbols_inv (sl : List (List Symbol)) (md : List String)
    (ixs : Nat) :
    ∀ (staff : List Symbol) (ix : Nat) (st st2 : St),
      run_symbols true sl md ixs staff ix st = .ok st2 →
      BufInv st → BufInv st2 := by
  intro staff
  induction staff with
  | nil =>
    intro ix st st2 h hi
    simp only [run_symbols, Except.ok.injEq] at h
    rw [← h]
    exact hi
  | cons s rest ih =>
    intro ix st st2 h hi
    simp only [run_symbols] at h
    cases hstep : step_symbol true sl md ixs ix st s with
    | error e =>
      rw [hstep] at h
      exact Except.noConfusion h
    | ok st1 =>
      rw [hstep] at h
      exact ih (ix + 1) st1 st2 h
        (BufInv_step st st1 hi (step_symbol_shape sl md ixs ix st s st1 hstep))

/-- Helper: one staff of the outer loop preserves the buffer invariant. -/
theorem run_staff_inv (sl : List (List Symbol)) (md : List String)
    (ix : Nat) (staff : List Symbol) (st st2 : St)
    (h : run_staff true sl md ix staff st = .ok st2) (hi : BufInv st) :
    BufInv st2 := by
  unfold run_staff at h
  cases h1 : staff_init true sl md ix staff st with
  | error e =>
    rw [h1] at h
    exact Except.noConfusion h
  | ok sta =>
    simp only [h1] at h
    obtain ⟨ho, suf, hs, -⟩ := staff_init_shape sl md ix staff st sta h1
    have hia : BufInv sta := BufInv_step st sta hi (Or.inl ⟨suf, hs, ho⟩)
    cases h2 : run_symbols true sl md ix staff 0 sta with
    | error e =>
      rw [h2] at h
      exact Except.noConfusion h
    | ok stb =>
      simp only [h2] at h
      have hib : BufInv stb := run_symbols_inv sl md ix staff 0 sta stb h2 hia
      by_cases hc : ¬ stb.saved = true ∧ ix ≠ sl.length - 1
      · rw [if_pos hc] at h
        injection h with h3
        rw [← h3]
        exact BufInv_step stb _ hib (Or.inl ⟨[], by simp, rfl⟩)
      · rw [if_neg hc] at h
        injection h with h3
        rw [← h3]
        exact hib

/-- Helper: the first staff establishes the buffer invariant from the
initial one-line buffer. -/
theorem run_staff_zero_inv (sl : List (List Symbol)) (md : List String)
    (staff : List Symbol) (st st2 : St)
    (h : run_staff true sl md 0 staff st = .ok st2)
    (hh : st.humdrum = ["**mens"]) (hout : st.outputs = []) : BufInv st2 := by
  unfold run_staff at h
  cases h1 : staff_init true sl md 0 staff st with
  | error e =>
    rw [h1] at h
    exact Except.noConfusion h
  | ok sta =>
    simp only [h1] at h
    obtain ⟨ho, suf, hs, hne⟩ := staff_init_shape sl md 0 staff st sta h1
    have hsufne : suf ≠ [] := hne rfl
    have hia : BufInv sta := by
      refine ⟨?_, ?_, ?_, ?_⟩
      · rw [hs, hh]
        rfl
      · rw [hs, hh]
        have hplen : 0 < suf.length := List.length_pos.mpr hsufne
        simp only [List.length_append, List.length_singleton]
        omega
      · intro o hoo
        rw [ho, hout] at hoo
        exact absurd hoo (List.not_mem_nil o)
      · rw [ho, hout]
        exact List.chain'_nil
    cases h2 : run_symbols true sl md 0 staff 0 sta with
    | error e =>
      rw [h2] at h
      exact Except.noConfusion h
    | ok stb =>
      simp only [h2] at h
      have hib : BufInv stb := run_symbols_inv sl md 0 staff 0 sta stb h2 hia
      by_cases hc : ¬ stb.saved = true ∧ (0 : Nat) ≠ sl.length - 1
      · rw [if_pos hc] at h
        injection h with h3
        rw [← h3]
        exact BufInv_step stb _ hib (Or.inl ⟨[], by simp, rfl⟩)
      · rw [if_neg hc] at h
        injection h with h3
        rw [← h3]
        exact hib

/-- Helper: the outer staff loop preserves the buffer invariant. -/
theorem run_staffs_inv (sl : List (List Symbol)) (md : List String) :
    ∀ (staffs : List (List Symbol)) (ix : Nat) (st st2 : St),
      run_staffs true sl md staffs ix st = .ok st2 → BufInv st → BufInv st2 := by
  intro staffs
  induction staffs with
  | nil =>
    intro ix st st2 h hi
    simp only [run_staffs, Except.ok.injEq] at h
    rw [← h]
    exact hi
  | cons staff rest ih =>
    intro ix st st2 h hi
    simp only [run_staffs] at h
    cases h1 : run_staff true sl md ix staff st with
    | error e =>
      rw [h1] at h
      exact Except.noConfusion h
    | ok st1 =>
      rw [h1] at h
      exact ih (ix + 1) st1 st2 h (run_staff_inv sl md ix staff st st1 h1 hi)


/-- C4, amended: with the alternate flat encoding requested, every flat
file recorded by a successful run begins with the declaration line
`**mens`; every file except possibly the last (i.e. every file finalized
by a Barline; the end-of-stream save snapshots the buffer as it stands,
without appending the terminator pair) ends with a double-barline line
followed by a terminator line; and the buffer is cumulative â never
cleared per document â so each file extends every earlier file of the run
(apart from the earlier file's last line, which a later `dot` or `met_3_2`
token may rewrite in place) rather than containing only its own
document's token lines. -/
theorem C4_theorem (stafflist : List (List Symbol)) (md : List String)
    (st : St) (h : convert_to_mei_and_humdrum stafflist md true = .ok st) :
    (∀ o ∈ st.outputs, o.humdrum.head? = some "**mens") ∧
    (∀ o ∈ st.outputs.dropLast, ∃ pre, o.humdrum = pre ++ ["=||", "*-"]) ∧
    List.Chain' (fun a b => ∃ suf, b.humdrum = a.humdrum.dropLast ++ suf)
      st.outputs := by
  unfold convert_to_mei_and_humdrum at h
  by_cases he : stafflist.isEmpty = true
  · rw [if_pos he] at h
    exact Except.noConfusion h
  · rw [if_neg he] at h
    cases hsl : stafflist with
    | nil =>
      rw [hsl] at he
      simp at he
    | cons s0 rest =>
      rw [hsl] at h
      simp only [run_staffs] at h
      cases h0 : run_staff true (s0 :: rest) md 0 s0 initSt with
      | error e =>
        rw [h0] at h
        exact Except.noConfusion h
      | ok st1 =>
        simp only [h0] at h
        have hinv1 : BufInv st1 :=
          run_staff_zero_inv (s0 :: rest) md s0 initSt st1 h0 rfl rfl
        cases h1 : run_staffs true (s0 :: rest) md rest (0 + 1) st1 with
        | error e =>
          rw [h1] at h
          exact Except.noConfusion h
        | ok stf =>
          simp only [h1] at h
          have hif : BufInv stf :=
            run_staffs_inv (s0 :: rest) md rest (0 + 1) st1 stf h1 hinv1
          obtain ⟨hhd, hlen, hout, hch⟩ := hif
          by_cases hsv : ¬ stf.saved = true
          · rw [if_pos hsv] at h
            obtain ⟨hhum2, name, ho2⟩ :=
              save_mei_file_state_shape true md _ _ stf st h
            refine ⟨?_, ?_, ?_⟩
            · intro o ho
              rw [ho2] at ho
              rcases List.mem_append.mp ho with hold | hnew
              · exact (hout o hold).1
              · have heq : o =
                    ⟨name, stf.doc, if true then stf.humdrum else []⟩ :=
                  List.mem_singleton.mp hnew
                rw [heq]
                show stf.humdrum.head? = some "**mens"
                exact hhd
            · intro o ho
              rw [ho2, List.dropLast_concat] at ho
              exact (hout o ho).2.1
            · rw [ho2]
              refine List.Chain'.append hch (List.chain'_singleton _) ?_
              intro a ha b hb
              have hb2 : b =
                  ⟨name, stf.doc, if true then stf.humdrum else []⟩ := by
                simp at hb
                exact hb.symm
              obtain ⟨hx, hlast⟩ := List.mem_getLast?_eq_getLast ha
              have ha2 : a ∈ stf.outputs := by
                rw [hlast]
                exact List.getLast_mem hx
              obtain ⟨-, -, -, s2, hs2⟩ := hout a ha2
              refine ⟨s2, ?_⟩
              rw [hb2]
              show stf.humdrum = _
              exact hs2
          · rw [if_neg hsv] at h
            injection h with h2
            rw [← h2]
            exact ⟨fun o ho => (hout o ho).1,
              fun o ho =>
                (hout o ((List.dropLast_sublist stf.outputs).subset ho)).2.1,
              hch⟩

/-- Witness for C4 on the C1 scenario piece: the recorded flat files all
start with the declaration line, all but the last end with the terminator
pair, and each extends its predecessor. -/
theorem C4_witness :
    (∀ o ∈ c4_state.outputs, o.humdrum.head? = some "**mens") ∧
    (∀ o ∈ c4_state.outputs.dropLast,
      ∃ pre, o.humdrum = pre ++ ["=||", "*-"]) ∧
    List.Chain' (fun a b => ∃ suf, b.humdrum = a.humdrum.dropLast ++ suf)
      c4_state.outputs :=
  C4_theorem pieceC1 ["piece"] c4_state (by decide)


/-- Helper: indexing an append at the length of the prefix. -/
theorem get_append_length {α : Type} :
    ∀ (pre : List α) (x : α) (tail : List α),
      (pre ++ x :: tail).get? pre.length = some x := by
  intro pre
  induction pre with
  | nil =>
    intro x tail
    rfl
  | cons a t ih =>
    intro x tail
    show (t ++ x :: tail).get? t.length = some x
    exact ih x tail

/-- Helper: one `save_mei_file` call on the machine state realises exactly
one `save_mei_file_naming` step, with `curLabel = metadata[ix]` and
`nextLabel = metadata[ix+1]` (absent at the last staff). -/
theorem save_step_naming (md : List String) (ix : Nat) (st : St) (L : String)
    (hL : md.get? ix = some L) (nl : Option String)
    (hnl : match nl with
           | some r => ix ≠ md.length - 1 ∧ md.get? (ix + 1) = some r
           | none => ix = md.length - 1)
    (name : String) (sv : SaveSt)
    (hsv : save_mei_file_naming
        ⟨st.used_filenames, st.filename_counter, st.filename⟩ L nl =
      (name, sv)) :
    ∃ st1, save_mei_file_state true md md.length ix st = .ok st1 ∧
      st1.outputs = st.outputs ++ [⟨name, st.doc, st.humdrum⟩] ∧
      st1.used_filenames = sv.used_filenames ∧
      st1.filename_counter = sv.filename_counter ∧
      st1.filename = sv.filename := by
  unfold save_mei_file_state
  cases nl with
  | some r =>
    obtain ⟨hne, hgr⟩ := hnl
    by_cases hmem : st.filename ∈ st.used_filenames
    · simp only [save_mei_file_naming, hmem, if_true] at hsv
      injection hsv with h1 h2
      rw [if_pos hmem, if_pos hne, hgr]
      refine ⟨_, rfl, ?_, ?_, ?_, ?_⟩
      · rw [← h1]
        rfl
      · rw [← h2]
      · rw [← h2]
      · rw [← h2]
    · simp only [save_mei_file_naming, hmem, if_false] at hsv
      injection hsv with h1 h2
      rw [if_neg hmem, hL, if_pos hne, hgr]
      refine ⟨_, rfl, ?_, ?_, ?_, ?_⟩
      · rw [← h1]
        rfl
      · rw [← h2]
      · rw [← h2]
      · rw [← h2]
  | none =>
    have hix : ix = md.length - 1 := hnl
    by_cases hmem : st.filename ∈ st.used_filenames
    · simp only [save_mei_file_naming, hmem, if_true] at hsv
      injection hsv with h1 h2
      rw [if_pos hmem, if_neg (not_not_intro hix)]
      refine ⟨_, rfl, ?_, ?_, ?_, ?_⟩
      · rw [← h1]
        rfl
      · rw [← h2]
      · rw [← h2]
      · rw [← h2]
    · simp only [save_mei_file_naming, hmem, if_false] at hsv
      injection hsv with h1 h2
      rw [if_neg hmem, hL, if_neg (not_not_intro hix)]
      refine ⟨_, rfl, ?_, ?_, ?_, ?_⟩
      · rw [← h1]
        rfl
      · rw [← h2]
      · rw [← h2]
      · rw [← h2]

/-- Helper: the one-save-per-staff iteration of the real
`save_mei_file_state` produces exactly the names of the
`save_mei_file_naming` fold over the remaining staff labels â the pure
naming model is faithful to the machine in this regime. -/
theorem staff_saves_eq (md : List String) :
    ∀ (tail pre : List String) (st : St), md = pre ++ tail →
      ∃ stf, staff_saves md md.length tail pre.length st = .ok stf ∧
        stf.outputs.map Output.save_name =
          st.outputs.map Output.save_name ++
            run_saves_from
              ⟨st.used_filenames, st.filename_counter, st.filename⟩ tail := by
  intro tail
  induction tail with
  | nil =>
    intro pre st hmd
    refine ⟨st, rfl, ?_⟩
    rw [run_saves_from, List.append_nil]
  | cons L rest ih =>
    intro pre st hmd
    have hL : md.get? pre.length = some L := by
      rw [hmd]
      exact get_append_length pre L rest
    have hnl : match rest.head? with
        | some r =>
          pre.length ≠ md.length - 1 ∧ md.get? (pre.length + 1) = some r
        | none => pre.length = md.length - 1 := by
      cases hr : rest with
      | nil =>
        show pre.length = md.length - 1
        rw [hmd, hr]
        simp only [List.length_append, List.length_cons, List.length_nil]
        omega
      | cons r rest2 =>
        show pre.length ≠ md.length - 1 ∧
          md.get? (pre.length + 1) = some r
        constructor
        · rw [hmd, hr]
          simp only [List.length_append, List.length_cons]
          omega
        · rw [hmd, hr]
          have hg := get_append_length (pre ++ [L]) r rest2
          rw [List.length_append, List.length_singleton] at hg
          rw [show pre ++ L :: r :: rest2 = (pre ++ [L]) ++ r :: rest2 from by
            rw [List.append_assoc]; rfl]
          exact hg
    obtain ⟨st1, hrun, ho, hu, hc, hf⟩ :=
      save_step_naming md pre.length st L hL rest.head? hnl
        (save_mei_file_naming
          ⟨st.used_filenames, st.filename_counter, st.filename⟩ L
          rest.head?).1
        (save_mei_file_naming
          ⟨st.used_filenames, st.filename_counter, st.filename⟩ L
          rest.head?).2
        rfl
    have ihr := ih (pre ++ [L]) st1 (by rw [hmd, List.append_assoc]; rfl)
    rw [List.length_append, List.length_singleton] at ihr
    obtain ⟨stf, hrunf, hnames⟩ := ihr
    refine ⟨stf, ?_, ?_⟩
    · simp only [staff_saves, hrun]
      exact hrunf
    · rw [hnames, ho, hu, hc, hf]
      conv_rhs => rw [run_saves_from]
      simp only [List.map_append, List.map_cons, List.map_nil]
      rw [List.append_assoc]
      rfl

/-- C6, amended: the `label_01 … label_0N` numbering holds provided every
staff finalizes exactly one document (one `save_mei_file` call per staff,
at the staff's own index) and staffs sharing a label are consecutive with
pairwise-distinct labels across groups (the arrangement
`convert_to_combined_list_with_metadata` produces): iterating the actual
`save_mei_file` state update over the staffs of such a run produces
exactly `label_01 … label_0N` per label group, in order.  The counter is
a single run-wide counter and the membership test uses a `filename`
variable re-seeded with the *next staff's* label at every save, so with
several finalizations inside one staff the numbering breaks â names can
repeat even for consecutive same-label finalizations (see the
counterexample). -/
theorem C6_theorem (runs : List (String × Nat))
    (hnd : (runs.map Prod.fst).Nodup) (hpos : ∀ p ∈ runs, 0 < p.2) :
    ∃ stf, staff_saves (expand_runs runs) (expand_runs runs).length
        (expand_runs runs) 0 (namingInit (expand_runs runs)) = .ok stf ∧
      stf.outputs.map Output.save_name = expected_names runs := by
  obtain ⟨stf, hrun, hnames⟩ :=
    staff_saves_eq (expand_runs runs) (expand_runs runs) []
      (namingInit (expand_runs runs)) rfl
  refine ⟨stf, hrun, ?_⟩
  rw [hnames]
  have hinit : (namingInit (expand_runs runs)).outputs.map Output.save_name ++
      run_saves_from
        ⟨(namingInit (expand_runs runs)).used_filenames,
         (namingInit (expand_runs runs)).filename_counter,
         (namingInit (expand_runs runs)).filename⟩ (expand_runs runs) =
      run_saves (expand_runs runs) := by
    cases hmd : expand_runs runs with
    | nil => rfl
    | cons l t => rfl
  rw [hinit]
  exact run_saves_grouped runs hnd hpos

/-- Witness for C6 at two staff groups: staff labels `[A, A, B]`, one save
per staff, produce exactly `[A_01, A_02, B_01]`. -/
theorem C6_witness :
    ∃ stf, staff_saves (expand_runs [("A", 2), ("B", 1)])
        (expand_runs [("A", 2), ("B", 1)]).length
        (expand_runs [("A", 2), ("B", 1)]) 0
        (namingInit (expand_runs [("A", 2), ("B", 1)])) = .ok stf ∧
      stf.outputs.map Output.save_name =
        expected_names [("A", 2), ("B", 1)] :=
  C6_theorem [("A", 2), ("B", 1)] (by decide) (by decide)

end MensuralToMei
